import Mathlib

/-!
# Verification of the caption segmentation and highlight-timing engine

Shallow embedding of `capcut_phrase_highlight_stable.py` (and the `ass_time`
helper of `capcut_phrase_hightligh_shorts.py`).  Python floats are modelled as
rationals, Python ints as `Nat`/`Int`, Python strings as `String`.
-/

set_option autoImplicit false

namespace VideoCaptioning

/-- A timestamped word, the dict `{"word": ..., "start": ..., "end": ...}`
of the Python source. -/
structure Word where
  word : String
  start : ℚ
  «end» : ℚ
deriving DecidableEq, Repr

/-- Embedding of Python `str.lower()`, character by character (ASCII case
mapping, which is all the merge table needs). -/
def py_lower (s : String) : String := String.mk (s.data.map Char.toLower)

/-- Embedding of `merge_phrases` (stable file, lines 76-121): merge
`a`+`cap`+`cut` (checked first) or `cap`+`cut` into the single token
`CapCut`, spanning the first start to the last end; anything else passes
through unchanged and the scan advances by one. -/
def merge_phrases : List Word → List Word
  | [] => []
  | [w0] => [w0]
  | [w0, w1] =>
    if py_lower w0.word = "cap" ∧ py_lower w1.word = "cut" then
      [⟨"CapCut", w0.start, w1.«end»⟩]
    else
      w0 :: merge_phrases [w1]
  | w0 :: w1 :: w2 :: rest =>
    if py_lower w0.word = "a" ∧ py_lower w1.word = "cap" ∧ py_lower w2.word = "cut" then
      ⟨"CapCut", w0.start, w2.«end»⟩ :: merge_phrases rest
    else if py_lower w0.word = "cap" ∧ py_lower w1.word = "cut" then
      ⟨"CapCut", w0.start, w1.«end»⟩ :: merge_phrases (w2 :: rest)
    else
      w0 :: merge_phrases (w1 :: w2 :: rest)

/-- The merge guard of `merge_phrases` fires at the head of the list:
either the three-token rule `a`+`cap`+`cut` or the two-token rule
`cap`+`cut` matches there. -/
def head_fire : List Word → Prop
  | w0 :: w1 :: w2 :: _ =>
    (py_lower w0.word = "a" ∧ py_lower w1.word = "cap" ∧ py_lower w2.word = "cut") ∨
    (py_lower w0.word = "cap" ∧ py_lower w1.word = "cut")
  | [w0, w1] => py_lower w0.word = "cap" ∧ py_lower w1.word = "cut"
  | _ => False

instance head_fire_decidable : (l : List Word) → Decidable (head_fire l)
  | [] => by unfold head_fire; exact inferInstance
  | [_] => by unfold head_fire; exact inferInstance
  | [_, _] => by unfold head_fire; exact inferInstance
  | _ :: _ :: _ :: _ => by unfold head_fire; exact inferInstance

/-- No occurrence of any merge pattern anywhere in the list. -/
def no_merge_pattern : List Word → Prop
  | [] => True
  | w :: rest => ¬head_fire (w :: rest) ∧ no_merge_pattern rest

instance no_merge_pattern_decidable : (l : List Word) → Decidable (no_merge_pattern l)
  | [] => by unfold no_merge_pattern; exact inferInstance
  | w :: rest => by
      unfold no_merge_pattern
      have := no_merge_pattern_decidable rest
      exact inferInstance

/-- Embedding of Python space-join (`" ".join(...)`): words concatenated
with single spaces. -/
def join_words : List String → String
  | [] => ""
  | [w] => w
  | w :: ws => w ++ " " ++ join_words ws

/-- The loop state of `group_words` (stable file, lines 136-139): the closed
groups so far, the open group, its cached joined length, and the previous
word's end time. -/
structure GState where
  groups : List (List Word)
  cur : List Word
  cur_len : ℕ
  last_end : Option ℚ
deriving DecidableEq, Repr

def g_init : GState := ⟨[], [], 0, none⟩

/-- The flush condition of the `group_words` loop (stable file, line 149):
the open group is non-empty and the pause, word count, or character budget
is exceeded. -/
def g_flush (max_words max_chars : ℕ) (max_gap : ℚ) (st : GState) (w : Word) : Prop :=
  ¬st.cur.isEmpty = true ∧
    ((match st.last_end with | some le => w.start - le | none => 0) > max_gap ∨
      st.cur.length ≥ max_words ∨
      st.cur_len + (w.word.length + (if st.cur.isEmpty then 0 else 1)) > max_chars)

instance g_flush_decidable (mw mc : ℕ) (mg : ℚ) (st : GState) (w : Word) :
    Decidable (g_flush mw mc mg st w) := by
  unfold g_flush
  exact inferInstance

/-- One iteration of the `group_words` loop body (stable file, lines
141-156): flush the open group when `g_flush` holds, then append the word
and update the cached length and previous end time. -/
def g_step (max_words max_chars : ℕ) (max_gap : ℚ) (st : GState) (w : Word) : GState :=
  let st1 : GState :=
    if g_flush max_words max_chars max_gap st w then
      ⟨st.groups ++ [st.cur], [], 0, st.last_end⟩
    else st
  ⟨st1.groups,
   st1.cur ++ [⟨w.word, w.start, w.«end»⟩],
   st1.cur_len + w.word.length + (if st1.cur_len ≠ 0 then 1 else 0),
   some w.«end»⟩

/-- After the loop, the final open group is closed if non-empty (stable
file, lines 158-159). -/
def g_finish (st : GState) : List (List Word) :=
  if st.cur.isEmpty then st.groups else st.groups ++ [st.cur]

/-- Embedding of `group_words` (stable file, lines 123-161). -/
def group_words (max_words max_chars : ℕ) (max_gap : ℚ) (words : List Word) :
    List (List Word) :=
  g_finish (words.foldl (g_step max_words max_chars max_gap) g_init)

theorem word_eta (w : Word) : (⟨w.word, w.start, w.«end»⟩ : Word) = w := rfl

theorem g_step_pos (mw mc : ℕ) (mg : ℚ) (st : GState) (w : Word)
    (h : g_flush mw mc mg st w) :
    g_step mw mc mg st w = ⟨st.groups ++ [st.cur], [w], w.word.length, some w.«end»⟩ := by
  unfold g_step
  rw [if_pos h]
  simp [word_eta]

theorem g_step_neg (mw mc : ℕ) (mg : ℚ) (st : GState) (w : Word)
    (h : ¬g_flush mw mc mg st w) :
    g_step mw mc mg st w =
      ⟨st.groups, st.cur ++ [w],
        st.cur_len + w.word.length + (if st.cur_len ≠ 0 then 1 else 0),
        some w.«end»⟩ := by
  unfold g_step
  rw [if_neg h]

theorem g_finish_join (st : GState) :
    (g_finish st).flatten = st.groups.flatten ++ st.cur := by
  unfold g_finish
  rcases st with ⟨groups, cur, len, le⟩
  cases cur <;> simp

theorem g_step_join (mw mc : ℕ) (mg : ℚ) (st : GState) (w : Word) :
    (g_step mw mc mg st w).groups.flatten ++ (g_step mw mc mg st w).cur =
      st.groups.flatten ++ st.cur ++ [w] := by
  by_cases h : g_flush mw mc mg st w
  · rw [g_step_pos mw mc mg st w h]
    simp
  · rw [g_step_neg mw mc mg st w h]
    simp

theorem g_foldl_join (mw mc : ℕ) (mg : ℚ) :
    ∀ (ws : List Word) (st : GState),
      (g_finish (ws.foldl (g_step mw mc mg) st)).flatten = st.groups.flatten ++ st.cur ++ ws
  | [], st => by simpa using g_finish_join st
  | w :: ws, st => by
    rw [List.foldl_cons, g_foldl_join mw mc mg ws (g_step mw mc mg st w)]
    rw [g_step_join]
    simp

/-- C1: grouping coverage.  Concatenating the groups produced by
`group_words`, in order, reproduces the input word sequence exactly: no
word is lost, duplicated, or reordered, and each word (text, start and end
included) is unchanged. -/
theorem grouping_coverage (mw mc : ℕ) (mg : ℚ) (ws : List Word) :
    (group_words mw mc mg ws).flatten = ws := by
  unfold group_words
  rw [g_foldl_join]
  simp [g_init]

theorem join_words_cons (w x : String) (ws : List String) :
    join_words (w :: x :: ws) = w ++ " " ++ join_words (x :: ws) := rfl

theorem join_words_length_append (ws : List String) (w : String) :
    (join_words (ws ++ [w])).length =
      if ws.isEmpty then w.length else (join_words ws).length + 1 + w.length := by
  induction ws with
  | nil => simp [join_words]
  | cons x xs ih =>
    cases xs with
    | nil =>
      show (join_words [x, w]).length = _
      rw [join_words_cons]
      simp [join_words, String.length_append]
      decide
    | cons y ys =>
      simp only [List.cons_append, join_words_cons, String.length_append] at ih ⊢
      simp only [List.isEmpty_cons] at ih ⊢
      simp only [if_neg (by simp : ¬(false = true))] at ih ⊢
      have hsp : " ".length = 1 := by decide
      omega

theorem word_length_pos (w : String) (h : w ≠ "") : 1 ≤ w.length := by
  rcases w with ⟨data⟩
  cases data with
  | nil => exact absurd rfl h
  | cons c cs => simp [String.length]

/-- The per-group property C2 asserts: a group is non-empty, within the
word-count cap, and within the character cap unless it is a single word. -/
def group_ok (mw mc : ℕ) (g : List Word) : Bool :=
  !g.isEmpty && decide (g.length ≤ mw) &&
    (decide (g.length = 1) || decide ((join_words (g.map Word.word)).length ≤ mc))

/-- Loop invariant for `group_words`: the cached length equals the joined
length of the open group, the open group respects both caps (or is a
singleton), and every closed group satisfies `group_ok`. -/
def c_inv (mw mc : ℕ) (st : GState) : Prop :=
  (st.cur = [] → st.cur_len = 0) ∧
  (st.cur ≠ [] →
    st.cur_len = (join_words (st.cur.map Word.word)).length ∧
    1 ≤ st.cur_len ∧
    st.cur.length ≤ mw ∧
    (st.cur.length = 1 ∨ st.cur_len ≤ mc)) ∧
  (∀ g ∈ st.groups, group_ok mw mc g = true)

theorem c_inv_init (mw mc : ℕ) : c_inv mw mc g_init := by
  refine ⟨fun _ => rfl, fun h => absurd rfl h, ?_⟩
  intro g hg
  simp [g_init] at hg

theorem cur_group_ok (mw mc : ℕ) (st : GState) (hc : st.cur ≠ [])
    (h : st.cur_len = (join_words (st.cur.map Word.word)).length ∧
      1 ≤ st.cur_len ∧ st.cur.length ≤ mw ∧
      (st.cur.length = 1 ∨ st.cur_len ≤ mc)) :
    group_ok mw mc st.cur = true := by
  obtain ⟨hclen, hcpos, hcount, hchars⟩ := h
  unfold group_ok
  rcases hchars with h1 | h1
  · simp [hc, h1]
    omega
  · simp [hc, hcount]
    right
    rw [← hclen]
    exact h1

theorem c_inv_step (mw mc : ℕ) (mg : ℚ) (st : GState) (w : Word)
    (hinv : c_inv mw mc st) (hmw : 1 ≤ mw) (hw : w.word ≠ "") :
    c_inv mw mc (g_step mw mc mg st w) := by
  obtain ⟨hnil, hcur, hgroups⟩ := hinv
  have hwlen : 1 ≤ w.word.length := word_length_pos w.word hw
  by_cases hcond : g_flush mw mc mg st w
  · -- flush, then start a fresh singleton group with this word
    rw [g_step_pos mw mc mg st w hcond]
    have hc : st.cur ≠ [] := by
      have := hcond.1
      simpa using this
    refine ⟨by simp, ?_, ?_⟩
    · intro _
      exact ⟨by simp [join_words], hwlen, by simpa using hmw, by simp⟩
    · intro g hg
      simp only [List.mem_append, List.mem_singleton] at hg
      rcases hg with hg | hg
      · exact hgroups g hg
      · rw [hg]
        exact cur_group_ok mw mc st hc (hcur hc)
  · rw [g_step_neg mw mc mg st w hcond]
    by_cases hc : st.cur = []
    · -- open group empty: word starts a fresh group
      have hlen0 : st.cur_len = 0 := hnil hc
      refine ⟨by simp, ?_, by simpa using hgroups⟩
      intro _
      rw [hc, hlen0]
      simp only [List.nil_append, List.length_cons, List.length_nil]
      refine ⟨?_, ?_, by simpa using hmw, by simp⟩
      · simp [join_words]
      · simpa using hwlen
    · -- append to the non-empty open group
      obtain ⟨hclen, hcpos, hcount, hchars⟩ := hcur hc
      unfold g_flush at hcond
      push_neg at hcond
      have hcne : ¬st.cur.isEmpty = true := by simpa using hc
      obtain ⟨hgap, hcnt, hchars2⟩ := hcond hcne
      rw [if_neg (by simpa using hc)] at hchars2
      have hne0 : st.cur_len ≠ 0 := by omega
      refine ⟨by simp, ?_, by simpa using hgroups⟩
      intro _
      simp only [if_pos hne0]
      have hjoin := join_words_length_append (st.cur.map Word.word) w.word
      rw [if_neg (by simpa using hc)] at hjoin
      have hmap : (st.cur ++ [w]).map Word.word = st.cur.map Word.word ++ [w.word] := by
        simp
      refine ⟨?_, by omega, ?_, ?_⟩
      · rw [hmap, hjoin, ← hclen]
        omega
      · simp only [List.length_append, List.length_cons, List.length_nil]
        omega
      · right
        omega

theorem c_inv_foldl (mw mc : ℕ) (mg : ℚ) :
    ∀ (ws : List Word) (st : GState), c_inv mw mc st → 1 ≤ mw →
      (∀ w ∈ ws, w.word ≠ "") → c_inv mw mc (ws.foldl (g_step mw mc mg) st)
  | [], st, h, _, _ => h
  | w :: ws, st, h, hmw, hne => by
    rw [List.foldl_cons]
    exact c_inv_foldl mw mc mg ws _
      (c_inv_step mw mc mg st w h hmw (hne w (by simp))) hmw
      (fun x hx => hne x (by simp [hx]))

/-- C2 (amended): with a positive word cap and non-empty word texts, every
group emitted by `group_words` is non-empty, has at most `max_words` words,
and its words joined by single spaces are at most `max_chars` characters
long unless the group is a single word. -/
theorem threshold_respect (mw mc : ℕ) (mg : ℚ) (ws : List Word)
    (hmw : 1 ≤ mw) (hne : ∀ w ∈ ws, w.word ≠ "") :
    ∀ g ∈ group_words mw mc mg ws, group_ok mw mc g = true := by
  obtain ⟨hnil, hcur, hgroups⟩ := c_inv_foldl mw mc mg ws g_init (c_inv_init mw mc) hmw hne
  intro g hg
  unfold group_words g_finish at hg
  by_cases hc : (ws.foldl (g_step mw mc mg) g_init).cur.isEmpty
  · rw [if_pos hc] at hg
    exact hgroups g hg
  · rw [if_neg hc] at hg
    simp only [List.mem_append, List.mem_singleton] at hg
    rcases hg with hg | hg
    · exact hgroups g hg
    · have hc2 : (ws.foldl (g_step mw mc mg) g_init).cur ≠ [] := by simpa using hc
      rw [hg]
      exact cur_group_ok mw mc _ hc2 (hcur hc2)

/-- C2 counterexample: with `max_words = 0` the word-count cap cannot hold
(the single-word group has one word, exceeding the cap of zero), so the
claim fails without the `1 ≤ max_words` assumption. -/
theorem threshold_respect_cex :
    (group_words 0 28 (13/20) [⟨"x", 0, 1⟩]).all (group_ok 0 28) = false := by
  decide

theorem g_step_cur_ne (mw mc : ℕ) (mg : ℚ) (st : GState) (w : Word) :
    (g_step mw mc mg st w).cur ≠ [] := by
  by_cases h : g_flush mw mc mg st w
  · rw [g_step_pos mw mc mg st w h]; simp
  · rw [g_step_neg mw mc mg st w h]; simp

theorem g_foldl_cur_ne (mw mc : ℕ) (mg : ℚ) :
    ∀ (ws : List Word) (st : GState), ws ≠ [] →
      (ws.foldl (g_step mw mc mg) st).cur ≠ []
  | [], _, h => absurd rfl h
  | [w], st, _ => by
    rw [List.foldl_cons, List.foldl_nil]
    exact g_step_cur_ne mw mc mg st w
  | w :: x :: ws, st, _ => by
    rw [List.foldl_cons]
    exact g_foldl_cur_ne mw mc mg (x :: ws) _ (by simp)

theorem g_step_last_end (mw mc : ℕ) (mg : ℚ) (st : GState) (w : Word) :
    (g_step mw mc mg st w).last_end = some w.«end» := by
  by_cases h : g_flush mw mc mg st w
  · rw [g_step_pos mw mc mg st w h]
  · rw [g_step_neg mw mc mg st w h]

theorem g_foldl_last_end (mw mc : ℕ) (mg : ℚ) :
    ∀ (ws : List Word) (st : GState), ws ≠ [] →
      (ws.foldl (g_step mw mc mg) st).last_end = ws.getLast?.map Word.«end»
  | [], _, h => absurd rfl h
  | [w], st, _ => by
    rw [List.foldl_cons, List.foldl_nil]
    rw [g_step_last_end mw mc mg st w]
    rfl
  | w :: x :: ws, st, _ => by
    rw [List.foldl_cons]
    rw [g_foldl_last_end mw mc mg (x :: ws) _ (by simp)]
    rw [List.getLast?_cons_cons]

theorem g_foldl_join_open (mw mc : ℕ) (mg : ℚ) :
    ∀ (ws : List Word) (st : GState),
      (ws.foldl (g_step mw mc mg) st).groups.flatten ++ (ws.foldl (g_step mw mc mg) st).cur =
        st.groups.flatten ++ st.cur ++ ws
  | [], st => by simp
  | w :: ws, st => by
    rw [List.foldl_cons, g_foldl_join_open mw mc mg ws _, g_step_join]
    simp

theorem g_step_groups_ext (mw mc : ℕ) (mg : ℚ) (st : GState) (w : Word) :
    ∃ u, (g_step mw mc mg st w).groups = st.groups ++ u := by
  by_cases h : g_flush mw mc mg st w
  · exact ⟨[st.cur], by rw [g_step_pos mw mc mg st w h]⟩
  · exact ⟨[], by rw [g_step_neg mw mc mg st w h]; simp⟩

theorem g_foldl_groups_ext (mw mc : ℕ) (mg : ℚ) :
    ∀ (ws : List Word) (st : GState),
      ∃ t, g_finish (ws.foldl (g_step mw mc mg) st) = st.groups ++ t
  | [], st => by
    rw [List.foldl_nil]
    unfold g_finish
    by_cases h : st.cur.isEmpty
    · exact ⟨[], by rw [if_pos h]; simp⟩
    · exact ⟨[st.cur], by rw [if_neg h]⟩
  | w :: ws, st => by
    rw [List.foldl_cons]
    obtain ⟨t, ht⟩ := g_foldl_groups_ext mw mc mg ws (g_step mw mc mg st w)
    obtain ⟨u, hu⟩ := g_step_groups_ext mw mc mg st w
    exact ⟨u ++ t, by rw [ht, hu, List.append_assoc]⟩

theorem g_foldl_groups_len (mw mc : ℕ) (mg : ℚ) :
    ∀ (ws : List Word) (st : GState), st.cur ≠ [] →
      st.groups.length + 1 ≤ (g_finish (ws.foldl (g_step mw mc mg) st)).length
  | [], st, h => by
    rw [List.foldl_nil]
    unfold g_finish
    rw [if_neg (by simpa using h)]
    simp
  | w :: ws, st, h => by
    rw [List.foldl_cons]
    have hrec := g_foldl_groups_len mw mc mg ws (g_step mw mc mg st w)
      (g_step_cur_ne mw mc mg st w)
    obtain ⟨u, hu⟩ := g_step_groups_ext mw mc mg st w
    rw [hu] at hrec
    simp only [List.length_append] at hrec
    omega

/-- C8: a pause longer than `max_gap` between consecutive words `k` and
`k+1` forces a group boundary exactly at position `k+1`: some non-trivial
proper prefix of the output groups flattens to exactly the first `k+1`
words.  Together with `grouping_coverage` this places words `k` and `k+1`
in different groups. -/
theorem gap_triggers_split (mw mc : ℕ) (mg : ℚ) (ws : List Word) (k : ℕ)
    (hk : k + 1 < ws.length)
    (hgap : (ws.get ⟨k + 1, hk⟩).start - (ws.get ⟨k, Nat.lt_of_succ_lt hk⟩).«end» > mg) :
    ∃ i, 0 < i ∧ i < (group_words mw mc mg ws).length ∧
      ((group_words mw mc mg ws).take i).flatten.length = k + 1 := by
  have hsplit : ws = ws.take (k + 1) ++ ws.drop (k + 1) := (List.take_append_drop _ _).symm
  have htlen : (ws.take (k + 1)).length = k + 1 := by
    rw [List.length_take]
    omega
  have htne : ws.take (k + 1) ≠ [] := by
    intro hnil
    rw [hnil] at htlen
    simp at htlen
  have hdrop : ws.drop (k + 1) = ws.get ⟨k + 1, hk⟩ :: ws.drop (k + 2) := by
    rw [List.drop_eq_getElem_cons hk]
    rfl
  set st1 := (ws.take (k + 1)).foldl (g_step mw mc mg) g_init with hst1
  have hcur1 : st1.cur ≠ [] := g_foldl_cur_ne mw mc mg _ _ htne
  have hgetlast : (ws.take (k + 1)).getLast? = some (ws.get ⟨k, Nat.lt_of_succ_lt hk⟩) := by
    rw [List.getLast?_eq_getElem?, htlen]
    simp only [Nat.add_sub_cancel]
    rw [List.getElem?_take, if_pos (by omega : k < k + 1)]
    rw [List.getElem?_eq_getElem (Nat.lt_of_succ_lt hk)]
    rfl
  have hlast1 : st1.last_end = some ((ws.get ⟨k, Nat.lt_of_succ_lt hk⟩).«end») := by
    rw [hst1, g_foldl_last_end mw mc mg _ _ htne, hgetlast]
    rfl
  have hflush : g_flush mw mc mg st1 (ws.get ⟨k + 1, hk⟩) := by
    constructor
    · simpa using hcur1
    · left
      rw [hlast1]
      exact hgap
  have hjoin1 : st1.groups.flatten ++ st1.cur = ws.take (k + 1) := by
    rw [hst1, g_foldl_join_open]
    simp [g_init]
  set st2 : GState := ⟨st1.groups ++ [st1.cur], [ws.get ⟨k + 1, hk⟩],
      (ws.get ⟨k + 1, hk⟩).word.length, some (ws.get ⟨k + 1, hk⟩).«end»⟩ with hst2
  have hstep2 : g_step mw mc mg st1 (ws.get ⟨k + 1, hk⟩) = st2 :=
    g_step_pos mw mc mg st1 _ hflush
  have hfold : ws.foldl (g_step mw mc mg) g_init =
      (ws.drop (k + 2)).foldl (g_step mw mc mg) st2 := by
    conv_lhs => rw [hsplit]
    rw [List.foldl_append, ← hst1, hdrop, List.foldl_cons, hstep2]
  have hGeq : group_words mw mc mg ws =
      g_finish ((ws.drop (k + 2)).foldl (g_step mw mc mg) st2) := by
    unfold group_words
    rw [hfold]
  obtain ⟨t, ht⟩ := g_foldl_groups_ext mw mc mg (ws.drop (k + 2)) st2
  have hglen := g_foldl_groups_len mw mc mg (ws.drop (k + 2)) st2 (by rw [hst2]; simp)
  have hst2groups : st2.groups = st1.groups ++ [st1.cur] := rfl
  rw [hst2groups] at ht hglen
  refine ⟨st1.groups.length + 1, by omega, ?_, ?_⟩
  · rw [hGeq, ht]
    rw [ht] at hglen
    simp only [List.length_append, List.length_cons, List.length_nil] at hglen ⊢
    omega
  · rw [hGeq, ht]
    have htake : ((st1.groups ++ [st1.cur]) ++ t).take (st1.groups.length + 1) =
        st1.groups ++ [st1.cur] := by
      have hlen1 : (st1.groups ++ [st1.cur]).length = st1.groups.length + 1 := by simp
      rw [← hlen1, List.take_left]
    rw [htake]
    have hfl : (st1.groups ++ [st1.cur]).flatten = st1.groups.flatten ++ st1.cur := by simp
    rw [hfl, hjoin1, htlen]

theorem merge_cons3 (w0 w1 w2 : Word) (rest : List Word) :
    merge_phrases (w0 :: w1 :: w2 :: rest) =
      if py_lower w0.word = "a" ∧ py_lower w1.word = "cap" ∧ py_lower w2.word = "cut" then
        ⟨"CapCut", w0.start, w2.«end»⟩ :: merge_phrases rest
      else if py_lower w0.word = "cap" ∧ py_lower w1.word = "cut" then
        ⟨"CapCut", w0.start, w1.«end»⟩ :: merge_phrases (w2 :: rest)
      else
        w0 :: merge_phrases (w1 :: w2 :: rest) := rfl

theorem merge_cons2 (w0 w1 : Word) :
    merge_phrases [w0, w1] =
      if py_lower w0.word = "cap" ∧ py_lower w1.word = "cut" then
        [⟨"CapCut", w0.start, w1.«end»⟩]
      else
        w0 :: merge_phrases [w1] := rfl

/-- Every element of the output of `merge_phrases` is either an emitted
`CapCut` token, or the pass-through of the input head with the scan
continuing on the tail and the merge guard known to have failed. -/
theorem merge_head : ∀ (l : List Word) (w : Word) (t : List Word),
    merge_phrases l = w :: t →
    w.word = "CapCut" ∨ (∃ r, l = w :: r ∧ t = merge_phrases r ∧ ¬head_fire l)
  | [], w, t, h => by simp [merge_phrases] at h
  | [w0], w, t, h => by
    simp only [merge_phrases] at h
    injection h with h1 h2
    right
    exact ⟨[], by rw [h1], by rw [← h2]; rfl, by simp [head_fire]⟩
  | [w0, w1], w, t, h => by
    rw [merge_cons2] at h
    by_cases hp : py_lower w0.word = "cap" ∧ py_lower w1.word = "cut"
    · rw [if_pos hp] at h
      injection h with h1 _
      left
      rw [← h1]
    · rw [if_neg hp] at h
      injection h with h1 h2
      right
      exact ⟨[w1], by rw [h1], by rw [← h2], by simpa [head_fire] using hp⟩
  | w0 :: w1 :: w2 :: rest, w, t, h => by
    rw [merge_cons3] at h
    by_cases h3 : py_lower w0.word = "a" ∧ py_lower w1.word = "cap" ∧ py_lower w2.word = "cut"
    · rw [if_pos h3] at h
      injection h with h1 _
      left
      rw [← h1]
    · rw [if_neg h3] at h
      by_cases h2 : py_lower w0.word = "cap" ∧ py_lower w1.word = "cut"
      · rw [if_pos h2] at h
        injection h with h1 _
        left
        rw [← h1]
      · rw [if_neg h2] at h
        injection h with h1 ht
        right
        refine ⟨w1 :: w2 :: rest, by rw [h1], by rw [← ht], ?_⟩
        intro hf
        unfold head_fire at hf
        rcases hf with hf | hf
        · exact h3 hf
        · exact h2 hf

theorem capcut_lower : py_lower "CapCut" = "capcut" := rfl

theorem capcut_no_fire (w : Word) (hw : w.word = "CapCut") (M : List Word) :
    ¬head_fire (w :: M) := by
  have hl : py_lower w.word = "capcut" := by rw [hw]; rfl
  cases M with
  | nil => simp [head_fire]
  | cons m0 M' =>
    cases M' with
    | nil =>
      simp only [head_fire]
      rw [hl]
      intro hc
      exact absurd hc.1 (by decide)
    | cons m1 M'' =>
      simp only [head_fire]
      rw [hl]
      rintro (hc | hc)
      · exact absurd hc.1 (by decide)
      · exact absurd hc.1 (by decide)

/-- The output of `merge_phrases` contains no occurrence of any merge
pattern: the emitted `CapCut` tokens cannot take part in a match, and
pass-through words stay adjacent only when the guard already failed on
them. -/
theorem merge_no_pattern : ∀ (l : List Word), no_merge_pattern (merge_phrases l)
  | [] => by simp [merge_phrases, no_merge_pattern]
  | [w0] => by
    simp only [merge_phrases, no_merge_pattern]
    exact ⟨by simp [head_fire], trivial⟩
  | [w0, w1] => by
    rw [merge_cons2]
    by_cases hp : py_lower w0.word = "cap" ∧ py_lower w1.word = "cut"
    · rw [if_pos hp]
      simp only [no_merge_pattern]
      exact ⟨by simp [head_fire], trivial⟩
    · rw [if_neg hp]
      simp only [merge_phrases, no_merge_pattern]
      exact ⟨by simpa [head_fire] using hp, by simp [head_fire], trivial⟩
  | w0 :: w1 :: w2 :: rest => by
    rw [merge_cons3]
    by_cases h3 : py_lower w0.word = "a" ∧ py_lower w1.word = "cap" ∧ py_lower w2.word = "cut"
    · rw [if_pos h3]
      exact ⟨capcut_no_fire _ rfl _, merge_no_pattern rest⟩
    · rw [if_neg h3]
      by_cases h2 : py_lower w0.word = "cap" ∧ py_lower w1.word = "cut"
      · rw [if_pos h2]
        exact ⟨capcut_no_fire _ rfl _, merge_no_pattern (w2 :: rest)⟩
      · rw [if_neg h2]
        refine ⟨?_, merge_no_pattern (w1 :: w2 :: rest)⟩
        intro hfire
        rcases hM : merge_phrases (w1 :: w2 :: rest) with _ | ⟨m0, M'⟩
        · rw [hM] at hfire
          simp [head_fire] at hfire
        · rw [hM] at hfire
          rcases merge_head (w1 :: w2 :: rest) m0 M' hM with hcap | ⟨r, hr, hM', hnf⟩
          · -- the element after w0 is an emitted CapCut: no pattern starts at w0
            have hl : py_lower m0.word = "capcut" := by rw [hcap]; rfl
            cases M' with
            | nil =>
              simp only [head_fire] at hfire
              rw [hl] at hfire
              exact absurd hfire.2 (by decide)
            | cons m1 M'' =>
              simp only [head_fire] at hfire
              rw [hl] at hfire
              rcases hfire with hc | hc
              · exact absurd hc.2.1 (by decide)
              · exact absurd hc.2 (by decide)
          · -- the element after w0 is the pass-through of w1
            have hm0 : m0 = w1 := by injection hr with ha _; exact ha.symm
            have hrr : r = w2 :: rest := by injection hr with _ hb; exact hb.symm
            subst hm0
            cases M' with
            | nil =>
              simp only [head_fire] at hfire
              exact h2 hfire
            | cons m1 M'' =>
              simp only [head_fire] at hfire
              rcases hfire with hc | hc
              · -- a 3-token match `w0 m0 m1` would force `m1 = w2`,
                -- contradicting the failed 3-token guard at `w0`
                rw [hrr] at hM'
                have hm : merge_phrases (w2 :: rest) = m1 :: M'' := hM'.symm
                rcases merge_head (w2 :: rest) m1 M'' hm with hcap1 | ⟨r2, hr2, _, _⟩
                · have hl1 : py_lower m1.word = "capcut" := by rw [hcap1]; rfl
                  rw [hl1] at hc
                  exact absurd hc.2.2 (by decide)
                · have hm1 : m1 = w2 := by injection hr2 with ha _; exact ha.symm
                  exact h3 ⟨hc.1, hc.2.1, hm1 ▸ hc.2.2⟩
              · exact h2 hc

/-- A list with no occurrence of any merge pattern passes through
`merge_phrases` unchanged. -/
theorem merge_of_no_pattern : ∀ (l : List Word), no_merge_pattern l → merge_phrases l = l
  | [], _ => rfl
  | [_], _ => rfl
  | [w0, w1], h => by
    obtain ⟨hnf, _⟩ := h
    rw [merge_cons2, if_neg (by simpa [head_fire] using hnf)]
    rfl
  | w0 :: w1 :: w2 :: rest, h => by
    obtain ⟨hnf, htail⟩ := h
    simp only [head_fire] at hnf
    rw [merge_cons3, if_neg (fun hf => hnf (Or.inl hf)), if_neg (fun hf => hnf (Or.inr hf))]
    rw [merge_of_no_pattern (w1 :: w2 :: rest) htail]

/-- C7: `merge_phrases` is idempotent — its output never contains a merge
pattern, so re-running it returns the output unchanged; in particular any
list containing no occurrence of a merge pattern is returned unchanged. -/
theorem merge_idempotent (l : List Word) :
    merge_phrases (merge_phrases l) = merge_phrases l ∧
      (no_merge_pattern l → merge_phrases l = l) :=
  ⟨merge_of_no_pattern _ (merge_no_pattern l), fun h => merge_of_no_pattern l h⟩

/-- Witness for C7 at a concrete already-normalized input. -/
theorem merge_idempotent_witness :
    merge_phrases (merge_phrases [⟨"CapCut", 0, 1⟩, ⟨"is", 1, 2⟩]) =
        merge_phrases [⟨"CapCut", 0, 1⟩, ⟨"is", 1, 2⟩] ∧
      merge_phrases [⟨"CapCut", 0, 1⟩, ⟨"is", 1, 2⟩] = [⟨"CapCut", 0, 1⟩, ⟨"is", 1, 2⟩] :=
  ⟨(merge_idempotent [⟨"CapCut", 0, 1⟩, ⟨"is", 1, 2⟩]).1,
    (merge_idempotent [⟨"CapCut", 0, 1⟩, ⟨"is", 1, 2⟩]).2 (by decide)⟩

/-- C6: the merge rule on `["a","cap","cut","is","great"]`, for arbitrary
timings: the three brand tokens collapse to one `CapCut` word spanning the
first start to the third end, the rest is unchanged. -/
theorem merge_rule (s0 e0 s1 e1 s2 e2 s3 e3 s4 e4 : ℚ) :
    merge_phrases [⟨"a", s0, e0⟩, ⟨"cap", s1, e1⟩, ⟨"cut", s2, e2⟩,
        ⟨"is", s3, e3⟩, ⟨"great", s4, e4⟩] =
      [⟨"CapCut", s0, e2⟩, ⟨"is", s3, e3⟩, ⟨"great", s4, e4⟩] := rfl

/-- Embedding of Python `round` on a rational value: round half to even
(banker's rounding), which is the semantics of Python's builtin `round`. -/
def pyRound (q : ℚ) : ℤ :=
  if q - ⌊q⌋ < 1/2 then ⌊q⌋
  else if 1/2 < q - ⌊q⌋ then ⌊q⌋ + 1
  else if ⌊q⌋ % 2 = 0 then ⌊q⌋ else ⌊q⌋ + 1

/-- Embedding of the Python format spec `{:02d}`: pad the decimal
representation with zeros on the left to a minimum width of 2. -/
def pad2 (n : ℤ) : String :=
  if (toString n).length < 2 then "0" ++ toString n else toString n

namespace Stable

/-- Embedding of `ass_time` (stable file, lines 34-40).  Python `divmod` is
floor division and floor remainder, hence `Int.fdiv`/`Int.fmod`; the
shadowed Python names are written `cs0, s0, m0` for the intermediate
values. -/
def ass_time (t : ℚ) : String :=
  let cs0 := pyRound (t * 100)
  let s0 := Int.fdiv cs0 100
  let cs := Int.fmod cs0 100
  let m0 := Int.fdiv s0 60
  let s := Int.fmod s0 60
  let h := Int.fdiv m0 60
  let m := Int.fmod m0 60
  toString h ++ ":" ++ pad2 m ++ ":" ++ pad2 s ++ "." ++ pad2 cs

end Stable

namespace Shorts

/-- Embedding of `ass_time` of `capcut_phrase_hightligh_shorts.py` (lines
35-47).  Lines 36-40 of that file compute a first, partly garbled pass
(including the walrus `h := m // 60` on line 40) whose results are then
discarded; lines 43-46 recompute everything from scratch and only those
values reach the format string.  The dead first pass is kept here as the
unused `d`-prefixed bindings. -/
def ass_time (t : ℚ) : String :=
  let dcs0 := pyRound (t * 100)
  let ds0 := Int.fdiv dcs0 100
  let _dcs := Int.fmod dcs0 100
  let dm0 := Int.fdiv ds0 60
  let _ds := Int.fmod ds0 60
  let dh0 := Int.fdiv dm0 60
  let _dh := Int.fdiv dh0 60
  let _dm := Int.fmod dh0 60
  let cs0 := pyRound (t * 100)
  let s0 := Int.fdiv cs0 100
  let cs := Int.fmod cs0 100
  let m0 := Int.fdiv s0 60
  let s := Int.fmod s0 60
  let h := Int.fdiv m0 60
  let m := Int.fmod m0 60
  toString h ++ ":" ++ pad2 m ++ ":" ++ pad2 s ++ "." ++ pad2 cs

end Shorts

theorem int_fdiv_coe (a b : ℕ) : Int.fdiv (a : ℤ) (b : ℤ) = ((a / b : ℕ) : ℤ) :=
  (Int.ofNat_fdiv a b).symm

theorem int_fmod_coe (a b : ℕ) : Int.fmod (a : ℤ) (b : ℤ) = ((a % b : ℕ) : ℤ) :=
  (Int.ofNat_fmod a b).symm

theorem int_toString_coe (k : ℕ) : toString ((k : ℤ)) = toString k := rfl

theorem pyRound_nonneg (q : ℚ) (h : 0 ≤ q) : 0 ≤ pyRound q := by
  unfold pyRound
  have h0 : (0:ℤ) ≤ ⌊q⌋ := by positivity
  split
  · exact h0
  · split
    · omega
    · split <;> omega

/-- C9: on every non-negative time the `ass_time` of the shorts script
returns the same string as the `ass_time` of the stable script (the first
computation block of the shorts version is dead code), and that common
string is the `h:mm:ss.cs` decomposition of `round(t*100)` centiseconds
into hours, minutes, seconds and centiseconds. -/
theorem ass_time_refines (t : ℚ) (ht : 0 ≤ t) :
    Shorts.ass_time t = Stable.ass_time t ∧
    Stable.ass_time t =
      toString ((pyRound (t * 100)).toNat / 360000) ++ ":" ++
        pad2 ((((pyRound (t * 100)).toNat / 6000) % 60 : ℕ) : ℤ) ++ ":" ++
        pad2 ((((pyRound (t * 100)).toNat / 100) % 60 : ℕ) : ℤ) ++ "." ++
        pad2 (((pyRound (t * 100)).toNat % 100 : ℕ) : ℤ) := by
  constructor
  · rfl
  · have hpos : 0 ≤ pyRound (t * 100) := pyRound_nonneg _ (by positivity)
    have hn : pyRound (t * 100) = ((pyRound (t * 100)).toNat : ℤ) :=
      (Int.toNat_of_nonneg hpos).symm
    set n := (pyRound (t * 100)).toNat with hdefn
    unfold Stable.ass_time
    rw [hn]
    rw [show ((100:ℤ)) = ((100:ℕ):ℤ) from by norm_cast,
        show ((60:ℤ)) = ((60:ℕ):ℤ) from by norm_cast]
    simp only [int_fdiv_coe, int_fmod_coe]
    have h2 : n / 100 / 60 / 60 = n / 360000 := by
      rw [Nat.div_div_eq_div_mul, Nat.div_div_eq_div_mul]
    have h1 : n / 100 / 60 = n / 6000 := by rw [Nat.div_div_eq_div_mul]
    rw [h2, h1]
    simp only [int_toString_coe]

/-- Witness for C9 at `t = 3661.237` (one hour, one minute, one second,
23.7 centiseconds, which rounds to 24). -/
theorem ass_time_refines_witness :
    Shorts.ass_time (3661237/1000) = Stable.ass_time (3661237/1000) ∧
      Stable.ass_time (3661237/1000) = "1:01:01.24" := by
  have h := ass_time_refines (3661237/1000) (by norm_num)
  refine ⟨h.1, ?_⟩
  rw [h.2]
  norm_num [pyRound, pad2]
  decide

/-- The junk word used as the (never hit) default of `List.getD` below. -/
def wdef : Word := ⟨"", 0, 0⟩

/-- Embedding of the per-word display window computation in `main` (stable
file, lines 295-308): start at the word's start; end at the next word's
start (or the word's own end for the last word of the group); extend to the
minimum duration if shorter; then add the tail padding. -/
def display_window (min_word_dur end_tail : ℚ) (g : List Word) (i : ℕ) : ℚ × ℚ :=
  let start := (g.getD i wdef).start
  let e0 := if i < g.length - 1 then (g.getD (i + 1) wdef).start else (g.getD i wdef).«end»
  let e1 := if e0 - start < min_word_dur then start + min_word_dur else e0
  (start, e1 + end_tail)

/-- C3: the display window of word `i` starts at that word's start; its end
is the natural end (next word's start, or own end for the last word),
clamped from below by `start + min_word_dur`, with the tail added on top of
the clamped value — so the clamp and the tail are cumulative, and with a
non-negative floor every window lasts at least `min_word_dur + end_tail`. -/
theorem highlight_window_spec (d tl : ℚ) (g : List Word) (i : ℕ) (hi : i < g.length) :
    (display_window d tl g i).1 = g[i].start ∧
    (display_window d tl g i).2 =
      max (if h : i + 1 < g.length then g[i + 1].start else g[i].«end»)
        (g[i].start + d) + tl ∧
    (0 ≤ d → (display_window d tl g i).1 + d + tl ≤ (display_window d tl g i).2) := by
  have hgd : g.getD i wdef = g[i] := List.getD_eq_getElem g wdef hi
  have hsucc : i < g.length - 1 ↔ i + 1 < g.length := by omega
  refine ⟨?_, ?_, ?_⟩
  · unfold display_window
    rw [hgd]
  · unfold display_window
    rw [hgd]
    by_cases hlast : i + 1 < g.length
    · rw [if_pos (hsucc.mpr hlast), dif_pos hlast]
      rw [List.getD_eq_getElem g wdef hlast]
      dsimp only
      rcases le_or_lt (g[i].start + d) (g[i + 1].start) with hc | hc
      · rw [if_neg (by linarith), max_eq_left hc]
      · rw [if_pos (by linarith), max_eq_right (le_of_lt hc)]
    · rw [if_neg (fun hx => hlast (hsucc.mp hx)), dif_neg hlast]
      dsimp only
      rcases le_or_lt (g[i].start + d) (g[i].«end») with hc | hc
      · rw [if_neg (by linarith), max_eq_left hc]
      · rw [if_pos (by linarith), max_eq_right (le_of_lt hc)]
  · intro hd
    unfold display_window
    dsimp only
    rcases lt_or_le ((if i < g.length - 1 then (g.getD (i + 1) wdef).start
        else (g.getD i wdef).«end») - (g.getD i wdef).start) d with hc | hc
    · rw [if_pos hc]
    · rw [if_neg (not_lt.mpr hc)]
      linarith

/-- Witness for C3 at the spec's minimum-duration test: starts `[0, 0.05]`,
`min_word_dur = 0.1`, `end_tail = 0.06`; the first window is clamped to
`0.1` and then the tail is added, ending at `0.16`. -/
theorem highlight_window_spec_witness :
    (display_window (1/10) (3/50) [⟨"a", 0, 1/20⟩, ⟨"b", 1/20, 2⟩] 0).1 = 0 ∧
      (display_window (1/10) (3/50) [⟨"a", 0, 1/20⟩, ⟨"b", 1/20, 2⟩] 0).2 = 4/25 := by
  have h := highlight_window_spec (1/10) (3/50) [⟨"a", 0, 1/20⟩, ⟨"b", 1/20, 2⟩] 0
    (by norm_num)
  refine ⟨h.1, ?_⟩
  rw [h.2.1]
  norm_num [List.get]

/-- Witness for C2 at the default thresholds on a one-word input. -/
theorem threshold_respect_witness :
    group_ok 7 28 [⟨"hi", 0, 1⟩] = true :=
  threshold_respect 7 28 (13/20) [⟨"hi", 0, 1⟩] (by norm_num)
    (by intro w hw; simp at hw; rw [hw]; decide)
    [⟨"hi", 0, 1⟩] (by decide)

/-- Concrete evaluation of `group_words` on two words separated by a gap of
`1` second, used by the C8 witness. -/
theorem group_words_eval2 :
    group_words 7 28 (13/20) [⟨"a", 0, 1⟩, ⟨"b", 2, 3⟩] =
      [[⟨"a", 0, 1⟩], [⟨"b", 2, 3⟩]] := by
  unfold group_words
  rw [List.foldl_cons, List.foldl_cons, List.foldl_nil]
  have e1 : g_step 7 28 (13/20) g_init ⟨"a", 0, 1⟩ = ⟨[], [⟨"a", 0, 1⟩], 1, some 1⟩ := by
    rw [g_step_neg 7 28 (13/20) g_init ⟨"a", 0, 1⟩ (by simp [g_flush, g_init])]
    rfl
  rw [e1]
  have hf : g_flush 7 28 (13/20) ⟨[], [⟨"a", 0, 1⟩], 1, some 1⟩ ⟨"b", 2, 3⟩ := by
    constructor
    · simp
    · left
      show (2:ℚ) - 1 > 13/20
      norm_num
  rw [g_step_pos 7 28 (13/20) _ _ hf]
  rfl

/-- Witness for C8: two words with a gap of `1 > 0.65` end up in two
groups, the first of which covers exactly the first word. -/
theorem gap_triggers_split_witness :
    (group_words 7 28 (13/20) [⟨"a", 0, 1⟩, ⟨"b", 2, 3⟩]).length = 2 ∧
      ((group_words 7 28 (13/20) [⟨"a", 0, 1⟩, ⟨"b", 2, 3⟩]).take 1).flatten.length = 1 := by
  obtain ⟨i, hpos, hlt, hflat⟩ :=
    gap_triggers_split 7 28 (13/20) [⟨"a", 0, 1⟩, ⟨"b", 2, 3⟩] 0 (by norm_num)
      (by show (2:ℚ) - 1 > 13/20; norm_num)
  rw [group_words_eval2] at hlt hflat ⊢
  have hi : i = 1 := by
    simp only [List.length_cons, List.length_nil] at hlt
    omega
  subst hi
  exact ⟨rfl, hflat⟩

/-- The score of a candidate split `i` in `choose_wrap_index` (stable file,
lines 180-183): the absolute difference in character length between the
two lines. -/
def wrap_score (ws : List String) (i : ℕ) : ℕ :=
  (((join_words (ws.take i)).length : ℤ) - ((join_words (ws.drop i)).length : ℤ)).natAbs

/-- The scan loop of `choose_wrap_index` (stable file, lines 178-186):
fold over the candidate indices keeping the best (index, score) pair,
updating only on a strictly smaller score. -/
def wrap_loop (ws : List String) : List ℕ → ℕ × ℕ → ℕ × ℕ
  | [], best => best
  | i :: rest, best =>
    if wrap_score ws i < best.2 then wrap_loop ws rest (i, wrap_score ws i)
    else wrap_loop ws rest best

/-- Embedding of `choose_wrap_index` (stable file, lines 164-187): `none`
for fewer than 4 words or a joined length of at most 18, else the best
index of the scan started at `(1, 10^9)` over candidates `1..len-1`. -/
def choose_wrap_index (ws : List String) : Option ℕ :=
  if ws.length < 4 then none
  else if (join_words ws).length ≤ 18 then none
  else some (wrap_loop ws (List.range' 1 (ws.length - 1)) (1, 10^9)).1

theorem wrap_loop_cons (ws : List String) (i : ℕ) (rest : List ℕ) (best : ℕ × ℕ) :
    wrap_loop ws (i :: rest) best =
      if wrap_score ws i < best.2 then wrap_loop ws rest (i, wrap_score ws i)
      else wrap_loop ws rest best := rfl

/-- Invariant of the scan loop over `range' a n`: either the initial best
pair survives and every scanned score is at least the initial best score,
or the result is the first index attaining the minimal scanned score,
which is strictly below the initial best score. -/
theorem wrap_loop_spec (ws : List String) :
    ∀ (n a bi bs ri rs : ℕ), wrap_loop ws (List.range' a n) (bi, bs) = (ri, rs) →
      (ri = bi ∧ rs = bs ∧ ∀ j, a ≤ j → j < a + n → bs ≤ wrap_score ws j) ∨
      (a ≤ ri ∧ ri < a + n ∧ rs = wrap_score ws ri ∧ rs < bs ∧
        (∀ j, a ≤ j → j < a + n → rs ≤ wrap_score ws j) ∧
        (∀ j, a ≤ j → j < ri → rs < wrap_score ws j)) := by
  intro n
  induction n with
  | zero =>
    intro a bi bs ri rs h
    simp only [List.range'] at h
    simp only [wrap_loop] at h
    obtain ⟨h1, h2⟩ := Prod.mk.injEq _ _ _ _ ▸ h
    left
    exact ⟨h1.symm, h2.symm, fun j hj1 hj2 => by omega⟩
  | succ n ih =>
    intro a bi bs ri rs h
    rw [List.range'_succ, wrap_loop_cons] at h
    by_cases hlt : wrap_score ws a < bs
    · rw [if_pos hlt] at h
      rcases ih (a + 1) a (wrap_score ws a) ri rs h with ⟨h1, h2, hmin⟩ | hr
      · right
        subst h1
        subst h2
        refine ⟨le_refl _, by omega, rfl, hlt, ?_, ?_⟩
        · intro j hj1 hj2
          rcases Nat.eq_or_lt_of_le hj1 with hj | hj
          · rw [← hj]
          · exact hmin j (by omega) (by omega)
        · intro j hj1 hj2
          omega
      · obtain ⟨ha, hb, hc, hd, hmin, hstrict⟩ := hr
        right
        refine ⟨by omega, by omega, hc, by omega, ?_, ?_⟩
        · intro j hj1 hj2
          rcases Nat.eq_or_lt_of_le hj1 with hj | hj
          · rw [← hj]; omega
          · exact hmin j (by omega) (by omega)
        · intro j hj1 hj2
          rcases Nat.eq_or_lt_of_le hj1 with hj | hj
          · rw [← hj]; omega
          · exact hstrict j (by omega) hj2
    · rw [if_neg hlt] at h
      rcases ih (a + 1) bi bs ri rs h with ⟨h1, h2, hmin⟩ | hr
      · left
        refine ⟨h1, h2, ?_⟩
        intro j hj1 hj2
        rcases Nat.eq_or_lt_of_le hj1 with hj | hj
        · rw [← hj]; omega
        · exact hmin j (by omega) (by omega)
      · obtain ⟨ha, hb, hc, hd, hmin, hstrict⟩ := hr
        right
        refine ⟨by omega, by omega, hc, hd, ?_, ?_⟩
        · intro j hj1 hj2
          rcases Nat.eq_or_lt_of_le hj1 with hj | hj
          · rw [← hj]; omega
          · exact hmin j (by omega) (by omega)
        · intro j hj1 hj2
          rcases Nat.eq_or_lt_of_le hj1 with hj | hj
          · rw [← hj]; omega
          · exact hstrict j (by omega) hj2

/-- C4 (amended): `choose_wrap_index` returns `none` exactly on fewer than
4 words or a joined length of at most 18; otherwise it returns an index in
`1..len-1`.  When every candidate scores at least the `10^9` sentinel the
loop never updates and index 1 is returned regardless of the scores;
whenever some candidate scores below the sentinel, the returned index
minimizes the absolute line-length difference, smallest index first. -/
theorem wrap_balance (ws : List String) :
    (choose_wrap_index ws = none ↔ ws.length < 4 ∨ (join_words ws).length ≤ 18) ∧
    (∀ i, choose_wrap_index ws = some i →
      1 ≤ i ∧ i + 1 ≤ ws.length ∧
      ((∀ j, 1 ≤ j → j < ws.length → 10^9 ≤ wrap_score ws j) → i = 1) ∧
      ((∃ j, 1 ≤ j ∧ j < ws.length ∧ wrap_score ws j < 10^9) →
        (∀ j, 1 ≤ j → j < ws.length → wrap_score ws i ≤ wrap_score ws j) ∧
        (∀ j, 1 ≤ j → j < i → wrap_score ws i < wrap_score ws j))) := by
  constructor
  · unfold choose_wrap_index
    by_cases h1 : ws.length < 4
    · rw [if_pos h1]
      simp [h1]
    · rw [if_neg h1]
      by_cases h2 : (join_words ws).length ≤ 18
      · rw [if_pos h2]
        simp [h2]
      · rw [if_neg h2]
        simp [h1, h2]
  · intro i hi
    unfold choose_wrap_index at hi
    by_cases h1 : ws.length < 4
    · rw [if_pos h1] at hi
      exact absurd hi (by simp)
    · rw [if_neg h1] at hi
      by_cases h2 : (join_words ws).length ≤ 18
      · rw [if_pos h2] at hi
        exact absurd hi (by simp)
      · rw [if_neg h2] at hi
        have hlen : 4 ≤ ws.length := by omega
        have hrange : 1 + (ws.length - 1) = ws.length := by omega
        have hival : i = (wrap_loop ws (List.range' 1 (ws.length - 1)) (1, 10^9)).1 :=
          (Option.some.injEq _ _ ▸ hi).symm
        have hspec := wrap_loop_spec ws (ws.length - 1) 1 1 (10^9)
          (wrap_loop ws (List.range' 1 (ws.length - 1)) (1, 10^9)).1
          (wrap_loop ws (List.range' 1 (ws.length - 1)) (1, 10^9)).2
          Prod.mk.eta
        rw [← hival] at hspec
        rcases hspec with ⟨ha, hb, hmin⟩ | ⟨ha, hb, hc, hd, hmin, hstrict⟩
        · subst ha
          refine ⟨le_refl _, by omega, fun _ => rfl, ?_⟩
          rintro ⟨j, hj1, hj2, hj3⟩
          have := hmin j hj1 (by omega)
          omega
        · refine ⟨ha, by omega, ?_, ?_⟩
          · intro hall
            have h9 := hall i ha (by omega)
            omega
          · intro _
            rw [hc] at hmin hstrict
            exact ⟨fun j hj1 hj2 => hmin j hj1 (by omega),
              fun j hj1 hj2 => hstrict j hj1 hj2⟩

/-- A two-billion-character word, used to push every split score past the
`10^9` sentinel of `choose_wrap_index`. -/
def bigX : String := String.mk (List.replicate 2000000000 'a')

/-- The four-word input of the C4 counterexample: the huge word is last, so
the balanced split would be as late as possible. -/
def badL : List String := ["x", "x", "x", bigX]

theorem bigX_len : bigX.length = 2000000000 := by
  unfold bigX
  rw [String.length_mk, List.length_replicate]

theorem wrap_score_bad1 : wrap_score badL 1 = 2000000003 := by
  unfold wrap_score
  have ht : badL.take 1 = ["x"] := rfl
  have hd : badL.drop 1 = ["x", "x", bigX] := rfl
  rw [ht, hd]
  have h1 : (join_words ["x"]).length = 1 := by decide
  have h2 : (join_words ["x", "x", bigX]).length = 2000000004 := by
    show ("x" ++ " " ++ ("x" ++ " " ++ bigX)).length = 2000000004
    rw [String.length_append, String.length_append, String.length_append,
        String.length_append, bigX_len]
    decide
  rw [h1, h2]
  decide

theorem wrap_score_bad2 : wrap_score badL 2 = 1999999999 := by
  unfold wrap_score
  have ht : badL.take 2 = ["x", "x"] := rfl
  have hd : badL.drop 2 = ["x", bigX] := rfl
  rw [ht, hd]
  have h1 : (join_words ["x", "x"]).length = 3 := by decide
  have h2 : (join_words ["x", bigX]).length = 2000000002 := by
    show ("x" ++ " " ++ bigX).length = 2000000002
    rw [String.length_append, String.length_append, bigX_len]
    decide
  rw [h1, h2]
  decide

theorem wrap_score_bad3 : wrap_score badL 3 = 1999999995 := by
  unfold wrap_score
  have ht : badL.take 3 = ["x", "x", "x"] := rfl
  have hd : badL.drop 3 = [bigX] := rfl
  rw [ht, hd]
  have h1 : (join_words ["x", "x", "x"]).length = 5 := by decide
  have h2 : (join_words [bigX]).length = 2000000000 := by
    show bigX.length = 2000000000
    exact bigX_len
  rw [h1, h2]
  decide

theorem choose_wrap_index_bad : choose_wrap_index badL = some 1 := by
  unfold choose_wrap_index
  have hjoin : (join_words badL).length = 2000000006 := by
    show ("x" ++ " " ++ ("x" ++ " " ++ ("x" ++ " " ++ bigX))).length = 2000000006
    rw [String.length_append, String.length_append, String.length_append,
        String.length_append, String.length_append, String.length_append, bigX_len]
    decide
  rw [if_neg (by decide : ¬badL.length < 4)]
  rw [if_neg (by rw [hjoin]; decide)]
  have hl : badL.length = 4 := by decide
  rw [hl]
  rw [show List.range' 1 (4 - 1) = [1, 2, 3] from rfl]
  rw [wrap_loop_cons, if_neg (by rw [wrap_score_bad1]; decide)]
  rw [wrap_loop_cons, if_neg (by rw [wrap_score_bad2]; decide)]
  rw [wrap_loop_cons, if_neg (by rw [wrap_score_bad3]; decide)]
  rfl

/-- C4 counterexample: on `["x","x","x",bigX]` every candidate split score
is at least `10^9`, so the loop never updates its initial best pair and
index 1 is returned even though index 3 scores strictly less — the claim
that the returned index always minimizes the score is false as stated. -/
theorem wrap_balance_cex :
    choose_wrap_index badL = some 1 ∧ wrap_score badL 3 < wrap_score badL 1 := by
  refine ⟨choose_wrap_index_bad, ?_⟩
  rw [wrap_score_bad3, wrap_score_bad1]
  decide

/-- Witness for C4 on the spec's 6-word phrase: the chosen split index 3 is
minimal (brute-force comparison against indices 1 and 2 shown here). -/
theorem wrap_balance_witness :
    choose_wrap_index ["the", "quick", "brown", "fox", "jumps", "today"] = some 3 ∧
      wrap_score ["the", "quick", "brown", "fox", "jumps", "today"] 3 ≤
        wrap_score ["the", "quick", "brown", "fox", "jumps", "today"] 1 ∧
      wrap_score ["the", "quick", "brown", "fox", "jumps", "today"] 3 <
        wrap_score ["the", "quick", "brown", "fox", "jumps", "today"] 2 := by
  have h := (wrap_balance ["the", "quick", "brown", "fox", "jumps", "today"]).2 3 (by decide)
  have hm := h.2.2.2 ⟨3, by norm_num, by decide, by decide⟩
  exact ⟨by decide, hm.1 1 (by norm_num) (by decide), hm.2 2 (by norm_num) (by norm_num)⟩

/-- Python whitespace for `str.strip`/`str.rstrip` (ASCII whitespace; the
word texts this program strips come from ASCII-configured tooling). -/
def py_isspace (c : Char) : Bool :=
  c = ' ' || c = '\t' || c = '\n' || c = '\r' || c = '\x0b' || c = '\x0c'

/-- Drop trailing `py_isspace` characters, the character-level core of
Python `str.rstrip()`. -/
def rstrip_chars : List Char → List Char
  | [] => []
  | c :: rest =>
    match rstrip_chars rest with
    | [] => if py_isspace c then [] else [c]
    | r => c :: r

theorem rstrip_chars_cons (c : Char) (rest : List Char) :
    rstrip_chars (c :: rest) =
      match rstrip_chars rest with
      | [] => if py_isspace c then [] else [c]
      | r => c :: r := rfl

/-- Embedding of Python `str.rstrip()`. -/
def py_rstrip (s : String) : String := String.mk (rstrip_chars s.data)

/-- Embedding of Python `str.strip()`: leading then trailing whitespace
removed. -/
def py_strip (s : String) : String :=
  String.mk (rstrip_chars (s.data.dropWhile py_isspace))

/-- The highlighted token of `build_highlight_phrase` (stable file, lines
209-212): the word preceded by a color-override block with the highlight
color and followed by one with the base color. -/
def hl_token (hl base w : String) : String :=
  "\x7b\\c" ++ hl ++ "\x7d" ++ w ++ "\x7b\\c" ++ base ++ "\x7d"

/-- The wrap-break test of the parts loop (stable file, line 217):
`wrap_i is not None and i == wrap_i - 1`, with Python integer semantics
(`wrap_i - 1` does not truncate at zero). -/
def break_after (wrap_i : Option ℕ) (i : ℕ) : Bool :=
  match wrap_i with
  | none => false
  | some k => decide ((i : ℤ) = (k : ℤ) - 1)

/-- The first loop of `build_highlight_phrase` (stable file, lines 205-218):
emit each word's token (highlighted at the active index) and insert the
break marker after the token preceding the wrap index. -/
def build_parts (a : ℕ) (hl base : String) (wrap_i : Option ℕ) :
    ℕ → List String → List String
  | _, [] => []
  | i, w :: ws =>
    (if i = a then hl_token hl base w else w) ::
      ((if break_after wrap_i i then ["\\N"] else []) ++
        build_parts a hl base wrap_i (i + 1) ws)

/-- Rstrip the final element of a list of strings (`out[-1] =
out[-1].rstrip()` in the source, line 225). -/
def rstrip_last : List String → List String
  | [] => []
  | [x] => [py_rstrip x]
  | x :: xs => x :: rstrip_last xs

/-- One iteration of the second loop of `build_highlight_phrase` (stable
file, lines 222-228): break markers strip the space off the previous
element and are appended bare; every other token is appended with a
trailing space. -/
def out_step (out : List String) (t : String) : List String :=
  if t = "\\N" then rstrip_last out ++ ["\\N"]
  else out ++ [t ++ " "]

/-- Embedding of `build_highlight_phrase` (stable file, lines 190-230).
The `pop_scale_x` parameter is received (line 195) but never used in the
body, exactly as in the source. -/
def build_highlight_phrase (word_objs : List Word) (active_idx : ℕ)
    (highlight_color base_color : String) (pop_scale_x : ℤ)
    (force_two_lines : Bool) : String :=
  let words := word_objs.map (fun w => w.word)
  let wrap_i := if force_two_lines then choose_wrap_index words else none
  let parts := build_parts active_idx highlight_color base_color wrap_i 0 words
  py_strip (String.join (parts.foldl out_step []))

/-- The per-word tokens of the rendering rule: each word carries the
highlight and reset markers exactly when it is the active word. -/
def render_tokens (a : ℕ) (hl base : String) : ℕ → List String → List String
  | _, [] => []
  | i, w :: ws =>
    (if i = a then hl_token hl base w else w) :: render_tokens a hl base (i + 1) ws

/-- The rendering C5 describes: tokens joined by single spaces, except that
at the chosen split boundary a line break replaces the space, with no
trailing space before the break. -/
def expected_phrase (g : List Word) (a : ℕ) (hl base : String)
    (wrap_i : Option ℕ) : String :=
  let toks := render_tokens a hl base 0 (g.map (fun w => w.word))
  match wrap_i with
  | none => join_words toks
  | some k => join_words (toks.take k) ++ "\\N" ++ join_words (toks.drop k)

/-- A word text acceptable to the rendering claim: non-empty with no
leading or trailing whitespace. -/
def clean_token (s : String) : Bool :=
  match s.data.head?, s.data.getLast? with
  | some c1, some c2 => !py_isspace c1 && !py_isspace c2
  | _, _ => false

theorem string_foldl_append : ∀ (l : List String) (s : String),
    l.foldl (fun a b => a ++ b) s = s ++ String.join l
  | [], s => by
    show s = s ++ String.join []
    rw [show String.join [] = "" from rfl, String.append_empty]
  | x :: l, s => by
    rw [List.foldl_cons, string_foldl_append l (s ++ x)]
    show (s ++ x) ++ String.join l = s ++ String.join (x :: l)
    rw [String.append_assoc]
    congr 1
    show x ++ String.join l = String.join (x :: l)
    rw [show String.join (x :: l) = List.foldl (fun a b => a ++ b) "" (x :: l) from rfl,
      List.foldl_cons, string_foldl_append l ("" ++ x), String.empty_append]

theorem string_join_cons (x : String) (l : List String) :
    String.join (x :: l) = x ++ String.join l := by
  rw [show String.join (x :: l) = List.foldl (fun a b => a ++ b) "" (x :: l) from rfl,
    List.foldl_cons, string_foldl_append l ("" ++ x), String.empty_append]

theorem string_join_append : ∀ (A B : List String),
    String.join (A ++ B) = String.join A ++ String.join B
  | [], B => by
    rw [List.nil_append, show String.join [] = "" from rfl, String.empty_append]
  | x :: A, B => by
    rw [List.cons_append, string_join_cons, string_join_append A B,
      string_join_cons, String.append_assoc]

theorem rstrip_chars_append_space :
    ∀ (l : List Char), (∀ c, l.getLast? = some c → py_isspace c = false) →
      rstrip_chars (l ++ [' ']) = l
  | [], _ => rfl
  | [x], h => by
    have hx : py_isspace x = false := h x rfl
    show rstrip_chars [x, ' '] = [x]
    rw [rstrip_chars_cons]
    rw [show rstrip_chars [' '] = [] from rfl]
    rw [if_neg (by rw [hx]; exact Bool.false_ne_true)]
  | x :: y :: l, h => by
    have hy : rstrip_chars ((y :: l) ++ [' ']) = y :: l :=
      rstrip_chars_append_space (y :: l)
        (fun c hc => h c (by rw [List.getLast?_cons_cons]; exact hc))
    show rstrip_chars (x :: ((y :: l) ++ [' '])) = x :: y :: l
    rw [rstrip_chars_cons, hy]

theorem rstrip_chars_clean :
    ∀ (l : List Char), (∀ c, l.getLast? = some c → py_isspace c = false) →
      rstrip_chars l = l
  | [], _ => rfl
  | [x], h => by
    have hx : py_isspace x = false := h x rfl
    show rstrip_chars [x] = [x]
    rw [rstrip_chars_cons]
    rw [show rstrip_chars ([] : List Char) = [] from rfl]
    rw [if_neg (by rw [hx]; exact Bool.false_ne_true)]
  | x :: y :: l, h => by
    have hy : rstrip_chars (y :: l) = y :: l :=
      rstrip_chars_clean (y :: l)
        (fun c hc => h c (by rw [List.getLast?_cons_cons]; exact hc))
    show rstrip_chars (x :: y :: l) = x :: y :: l
    rw [rstrip_chars_cons, hy]

theorem dropWhile_head_clean (l : List Char)
    (h : ∀ c, l.head? = some c → py_isspace c = false) :
    l.dropWhile py_isspace = l := by
  cases l with
  | nil => rfl
  | cons x xs =>
    rw [List.dropWhile_cons, if_neg (by rw [h x rfl]; exact Bool.false_ne_true)]

/-- Stripping a well-formed phrase followed by one trailing space returns
exactly the phrase. -/
theorem py_strip_eval (X : String)
    (hh : ∀ c, X.data.head? = some c → py_isspace c = false)
    (hl : ∀ c, X.data.getLast? = some c → py_isspace c = false) :
    py_strip (X ++ " ") = X := by
  unfold py_strip
  rw [String.data_append]
  rw [show (" " : String).data = [' '] from rfl]
  cases hX : X.data with
  | nil =>
    apply String.ext
    show rstrip_chars (List.dropWhile py_isspace ([] ++ [' '])) = X.data
    rw [show rstrip_chars (List.dropWhile py_isspace ([] ++ [' '])) = [] from rfl]
    exact hX.symm
  | cons c cs =>
    have hc : py_isspace c = false := hh c (by rw [hX]; rfl)
    rw [List.cons_append, List.dropWhile_cons,
      if_neg (by rw [hc]; exact Bool.false_ne_true), ← List.cons_append]
    rw [rstrip_chars_append_space (c :: cs) (fun d hd => hl d (by rw [hX]; exact hd))]
    apply String.ext
    show c :: cs = X.data
    exact hX.symm

/-- A token in good standing for the rendering proof: non-empty, no
whitespace at either edge, and distinct from the break marker. -/
def tok_ok (t : String) : Prop :=
  t.data ≠ [] ∧
  (∀ c, t.data.head? = some c → py_isspace c = false) ∧
  (∀ c, t.data.getLast? = some c → py_isspace c = false) ∧
  t ≠ "\\N"

theorem hl_token_data (hl base w : String) :
    (hl_token hl base w).data =
      '{' :: '\\' :: 'c' ::
        (hl.data ++ '}' ::
          (w.data ++ '{' :: '\\' :: 'c' :: (base.data ++ ['}']))) := by
  unfold hl_token
  rw [String.data_append, String.data_append, String.data_append,
    String.data_append, String.data_append]
  rw [show ("\x7b\\c" : String).data = ['{', '\\', 'c'] from rfl,
    show ("\x7d" : String).data = ['}'] from rfl]
  simp

theorem tok_ok_hl_token (hl base w : String) : tok_ok (hl_token hl base w) := by
  refine ⟨?_, ?_, ?_, ?_⟩
  · rw [hl_token_data]
    exact List.cons_ne_nil _ _
  · intro c hc
    rw [hl_token_data] at hc
    rw [show ('{' :: '\\' :: 'c' ::
        (hl.data ++ '}' ::
          (w.data ++ '{' :: '\\' :: 'c' :: (base.data ++ ['}'])))).head?
        = some '{' from rfl] at hc
    injection hc with hc
    rw [← hc]
    decide
  · intro c hc
    rw [hl_token_data] at hc
    have h1 : ('{' :: '\\' :: 'c' ::
        (hl.data ++ '}' ::
          (w.data ++ '{' :: '\\' :: 'c' :: (base.data ++ ['}'])))).getLast?
        = some '}' := by
      rw [show ('{' :: '\\' :: 'c' ::
          (hl.data ++ '}' ::
            (w.data ++ '{' :: '\\' :: 'c' :: (base.data ++ ['}'])))) =
        ('{' :: '\\' :: 'c' :: hl.data) ++ '}' ::
          (w.data ++ '{' :: '\\' :: 'c' :: base.data) ++ ['}'] from by simp]
      rw [List.getLast?_append]
      rfl
    rw [h1] at hc
    injection hc with hc
    rw [← hc]
    decide
  · intro h
    have h2 := congrArg String.data h
    rw [hl_token_data] at h2
    rw [show ("\\N" : String).data = ['\\', 'N'] from rfl] at h2
    injection h2 with h3 _
    exact absurd h3 (by decide)

theorem tok_ok_of_clean (w : String) (hc : clean_token w = true) (hn : w ≠ "\\N") :
    tok_ok w := by
  unfold clean_token at hc
  cases hh : w.data.head? with
  | none =>
    rw [hh] at hc
    cases hgl : w.data.getLast? <;> rw [hgl] at hc <;> simp at hc
  | some c1 =>
    cases hgl : w.data.getLast? with
    | none =>
      rw [hh, hgl] at hc
      simp at hc
    | some c2 =>
      rw [hh, hgl] at hc
      simp only [Bool.and_eq_true, Bool.not_eq_eq_eq_not, Bool.not_true] at hc
      refine ⟨?_, ?_, ?_, hn⟩
      · intro hnil
        rw [hnil] at hh
        simp at hh
      · intro c hcc
        rw [hh] at hcc
        injection hcc with hcc
        rw [← hcc]
        exact hc.1
      · intro c hcc
        rw [hgl] at hcc
        injection hcc with hcc
        rw [← hcc]
        exact hc.2

theorem render_tokens_cons (a : ℕ) (hl base : String) (i : ℕ) (w : String)
    (ws : List String) :
    render_tokens a hl base i (w :: ws) =
      (if i = a then hl_token hl base w else w) :: render_tokens a hl base (i + 1) ws := rfl

theorem render_tokens_ok (a : ℕ) (hl base : String) :
    ∀ (ws : List String) (i : ℕ),
      (∀ w ∈ ws, clean_token w = true ∧ w ≠ "\\N") →
      ∀ t ∈ render_tokens a hl base i ws, tok_ok t
  | [], _, _, t, ht => absurd ht (by simp [render_tokens])
  | w :: ws, i, h, t, ht => by
    rw [render_tokens_cons] at ht
    rcases List.mem_cons.mp ht with ht | ht
    · rw [ht]
      by_cases hia : i = a
      · rw [if_pos hia]
        exact tok_ok_hl_token hl base w
      · rw [if_neg hia]
        exact tok_ok_of_clean w (h w (by simp)).1 (h w (by simp)).2
    · exact render_tokens_ok a hl base ws (i + 1)
        (fun x hx => h x (by simp [hx])) t ht

theorem render_tokens_length (a : ℕ) (hl base : String) :
    ∀ (ws : List String) (i : ℕ),
      (render_tokens a hl base i ws).length = ws.length
  | [], _ => rfl
  | w :: ws, i => by
    rw [render_tokens_cons, List.length_cons, List.length_cons,
      render_tokens_length a hl base ws (i + 1)]

theorem render_tokens_take (a : ℕ) (hl base : String) :
    ∀ (ws : List String) (i k : ℕ),
      render_tokens a hl base i (ws.take k) = (render_tokens a hl base i ws).take k
  | [], _, _ => by simp [render_tokens]
  | w :: ws, i, 0 => rfl
  | w :: ws, i, k + 1 => by
    rw [List.take_succ_cons, render_tokens_cons, render_tokens_cons,
      List.take_succ_cons, render_tokens_take a hl base ws (i + 1) k]

theorem render_tokens_drop (a : ℕ) (hl base : String) :
    ∀ (ws : List String) (i k : ℕ),
      render_tokens a hl base (i + k) (ws.drop k) = (render_tokens a hl base i ws).drop k
  | [], _, _ => by simp [render_tokens]
  | w :: ws, i, 0 => rfl
  | w :: ws, i, k + 1 => by
    rw [List.drop_succ_cons, render_tokens_cons, List.drop_succ_cons]
    rw [show i + (k + 1) = (i + 1) + k from by omega]
    exact render_tokens_drop a hl base ws (i + 1) k

theorem out_fold_no_break :
    ∀ (toks : List String) (out : List String), (∀ t ∈ toks, t ≠ "\\N") →
      toks.foldl out_step out = out ++ toks.map (fun t => t ++ " ")
  | [], out, _ => by simp
  | t :: toks, out, h => by
    rw [List.foldl_cons]
    rw [show out_step out t = out ++ [t ++ " "] from if_neg (h t (by simp))]
    rw [out_fold_no_break toks (out ++ [t ++ " "]) (fun x hx => h x (by simp [hx]))]
    simp

theorem rstrip_last_cons2 (x y : String) (xs : List String) :
    rstrip_last (x :: y :: xs) = x :: rstrip_last (y :: xs) := rfl

theorem rstrip_last_concat : ∀ (xs : List String) (x : String),
    rstrip_last (xs ++ [x]) = xs ++ [py_rstrip x]
  | [], x => rfl
  | y :: ys, x => by
    rw [List.cons_append]
    cases ys with
    | nil => rfl
    | cons z zs =>
      rw [List.cons_append, rstrip_last_cons2, ← List.cons_append,
        rstrip_last_concat (z :: zs) x]
      simp

theorem py_rstrip_space (t : String) (h : tok_ok t) : py_rstrip (t ++ " ") = t := by
  unfold py_rstrip
  rw [String.data_append, show (" " : String).data = [' '] from rfl]
  rw [rstrip_chars_append_space t.data h.2.2.1]

theorem build_parts_none (a : ℕ) (hl base : String) :
    ∀ (ws : List String) (i : ℕ),
      build_parts a hl base none i ws = render_tokens a hl base i ws
  | [], _ => rfl
  | w :: ws, i => by
    show (if i = a then hl_token hl base w else w) ::
        ((if break_after none i then ["\\N"] else []) ++ build_parts a hl base none (i + 1) ws) =
      _
    rw [show break_after none i = false from rfl]
    rw [if_neg Bool.false_ne_true, List.nil_append,
      build_parts_none a hl base ws (i + 1)]
    rw [render_tokens_cons]

theorem break_after_some (k i : ℕ) (hk : 1 ≤ k) :
    break_after (some k) i = true ↔ i + 1 = k := by
  unfold break_after
  rw [decide_eq_true_eq]
  omega

theorem build_parts_split (a : ℕ) (hl base : String) (k : ℕ) (hk : 1 ≤ k) :
    ∀ (ws : List String) (i : ℕ),
      build_parts a hl base (some k) i ws =
        render_tokens a hl base i (ws.take (k - i)) ++
        (if i < k ∧ k ≤ i + ws.length then ["\\N"] else []) ++
        render_tokens a hl base (max i k) (ws.drop (k - i))
  | [], i => by
    rw [show build_parts a hl base (some k) i [] = [] from rfl]
    rw [List.take_nil, List.drop_nil]
    rw [show render_tokens a hl base i [] = [] from rfl,
      show render_tokens a hl base (max i k) [] = [] from rfl]
    rw [if_neg (by simp only [List.length_nil]; omega :
      ¬(i < k ∧ k ≤ i + ([] : List String).length))]
    rfl
  | w :: ws, i => by
    show (if i = a then hl_token hl base w else w) ::
        ((if break_after (some k) i then ["\\N"] else []) ++
          build_parts a hl base (some k) (i + 1) ws) = _
    rcases Nat.lt_trichotomy (i + 1) k with hik | hik | hik
    · -- the break lies further right
      rw [if_neg (fun hb => absurd ((break_after_some k i hk).mp hb)
        (by omega : ¬(i + 1 = k)))]
      rw [List.nil_append, build_parts_split a hl base k hk ws (i + 1)]
      have h1 : k - i = (k - (i + 1)) + 1 := by omega
      rw [h1, List.take_succ_cons, List.drop_succ_cons, render_tokens_cons]
      have h2 : max (i + 1) k = k := by omega
      have h3 : max i k = k := by omega
      rw [h2, h3]
      have h4 : (i + 1 < k ∧ k ≤ i + 1 + ws.length) ↔
          (i < k ∧ k ≤ i + (w :: ws).length) := by
        rw [List.length_cons]
        omega
      by_cases h5 : i + 1 < k ∧ k ≤ i + 1 + ws.length
      · rw [if_pos h5, if_pos (h4.mp h5)]
        simp
      · rw [if_neg h5, if_neg (fun hx => h5 (h4.mpr hx))]
        simp
    · -- the break comes right after this token
      rw [if_pos ((break_after_some k i hk).mpr hik)]
      rw [build_parts_split a hl base k hk ws (i + 1)]
      have h1 : k - (i + 1) = 0 := by omega
      have h2 : k - i = 1 := by omega
      rw [h1, h2, List.take_zero, List.drop_zero]
      rw [show render_tokens a hl base (i + 1) [] = [] from rfl, List.nil_append]
      rw [if_neg (by omega : ¬(i + 1 < k ∧ k ≤ i + 1 + ws.length))]
      rw [show max (i + 1) k = i + 1 from by omega]
      rw [List.take_succ_cons, List.take_zero, List.drop_succ_cons, List.drop_zero]
      rw [render_tokens_cons]
      rw [show render_tokens a hl base (i + 1) [] = [] from rfl]
      rw [if_pos (by rw [List.length_cons]; omega : i < k ∧ k ≤ i + (w :: ws).length)]
      rw [show max i k = i + 1 from by omega]
      simp
    · -- the break lies to the left: it was already emitted
      rw [if_neg (fun hb => absurd ((break_after_some k i hk).mp hb)
        (by omega : ¬(i + 1 = k)))]
      rw [List.nil_append, build_parts_split a hl base k hk ws (i + 1)]
      have h1 : k - i = 0 := by omega
      have h2 : k - (i + 1) = 0 := by omega
      rw [h1, h2, List.take_zero, List.take_zero, List.drop_zero, List.drop_zero]
      rw [show render_tokens a hl base i [] = [] from rfl,
        show render_tokens a hl base (i + 1) [] = [] from rfl]
      rw [if_neg (by rw [List.length_cons]; omega : ¬(i < k ∧ k ≤ i + (w :: ws).length)),
        if_neg (by omega : ¬(i + 1 < k ∧ k ≤ i + 1 + ws.length))]
      rw [show max i k = i from by omega, show max (i + 1) k = i + 1 from by omega]
      simp only [List.nil_append]
      rw [render_tokens_cons]

theorem join_map_space : ∀ (toks : List String), toks ≠ [] →
    String.join (toks.map (fun t => t ++ " ")) = join_words toks ++ " "
  | [], h => absurd rfl h
  | [t], _ => by
    rw [show ([t] : List String).map (fun t => t ++ " ") = [t ++ " "] from rfl,
      string_join_cons, show String.join [] = "" from rfl, String.append_empty]
    rfl
  | t :: t' :: toks, _ => by
    rw [show ((t :: t' :: toks) : List String).map (fun t => t ++ " ") =
        (t ++ " ") :: (t' :: toks).map (fun t => t ++ " ") from rfl]
    rw [string_join_cons, join_map_space (t' :: toks) (by simp), join_words_cons]
    rw [← String.append_assoc]

theorem join_map_concat : ∀ (I : List String) (tl : String),
    String.join (I.map (fun t => t ++ " ")) ++ tl = join_words (I ++ [tl])
  | [], tl => by
    rw [show (([] : List String).map (fun t => t ++ " ")) = [] from rfl,
      show String.join [] = "" from rfl, String.empty_append, List.nil_append]
    rfl
  | x :: I, tl => by
    rw [show ((x :: I) : List String).map (fun t => t ++ " ") =
        (x ++ " ") :: I.map (fun t => t ++ " ") from rfl]
    rw [string_join_cons, String.append_assoc, join_map_concat I tl, List.cons_append]
    cases I with
    | nil =>
      rw [List.nil_append, show join_words [tl] = tl from rfl]
      rfl
    | cons y ys =>
      rw [List.cons_append, join_words_cons, ← List.cons_append, String.append_assoc]

theorem join_words_data_ne_nil : ∀ (toks : List String),
    (∀ t ∈ toks, tok_ok t) → toks ≠ [] → (join_words toks).data ≠ []
  | [], _, h => absurd rfl h
  | [t], h, _ => (h t (by simp)).1
  | t :: t' :: toks, h, _ => by
    rw [join_words_cons, String.data_append, String.data_append]
    intro hx
    rcases List.append_eq_nil.mp hx with ⟨hy, _⟩
    rcases List.append_eq_nil.mp hy with ⟨hz, _⟩
    exact (h t (by simp)).1 hz

theorem join_words_head_ok : ∀ (toks : List String), (∀ t ∈ toks, tok_ok t) →
    ∀ c, (join_words toks).data.head? = some c → py_isspace c = false
  | [], _, c, hc => by simp [join_words] at hc
  | [t], h, c, hc => (h t (by simp)).2.1 c hc
  | t :: t' :: toks, h, c, hc => by
    rw [join_words_cons, String.data_append, String.data_append] at hc
    have hne := (h t (by simp)).1
    cases hd : t.data with
    | nil => exact absurd hd hne
    | cons x xs =>
      rw [hd, List.cons_append, List.cons_append] at hc
      injection hc with hc
      rw [← hc]
      exact (h t (by simp)).2.1 x (by rw [hd]; rfl)

theorem join_words_last_ok : ∀ (toks : List String), (∀ t ∈ toks, tok_ok t) →
    ∀ c, (join_words toks).data.getLast? = some c → py_isspace c = false
  | [], _, c, hc => by simp [join_words] at hc
  | [t], h, c, hc => (h t (by simp)).2.2.1 c hc
  | t :: t' :: toks, h, c, hc => by
    rw [join_words_cons, String.data_append, String.data_append] at hc
    have hne : (join_words (t' :: toks)).data ≠ [] :=
      join_words_data_ne_nil (t' :: toks) (fun x hx => h x (by simp [hx])) (by simp)
    rw [List.getLast?_append, List.getLast?_append] at hc
    cases hj : (join_words (t' :: toks)).data.getLast? with
    | none =>
      exact absurd (List.getLast?_eq_none_iff.mp hj) hne
    | some d =>
      rw [hj] at hc
      rw [show (some d).or ((" " : String).data.getLast?.or t.data.getLast?) = some d
        from rfl] at hc
      injection hc with hc
      rw [← hc]
      exact join_words_last_ok (t' :: toks) (fun x hx => h x (by simp [hx])) d hj

theorem head?_append_ne (a b : List Char) (h : a ≠ []) :
    (a ++ b).head? = a.head? := by
  cases a with
  | nil => exact absurd rfl h
  | cons x xs => rfl

theorem string_join_singleton (x : String) : String.join [x] = x := by
  rw [string_join_cons, show String.join [] = "" from rfl, String.append_empty]

/-- The no-wrap rendering: tokens with trailing spaces, joined and
stripped, give exactly the space-joined tokens. -/
theorem phrase_of_tokens (toks : List String) (h : ∀ t ∈ toks, tok_ok t) :
    py_strip (String.join (toks.foldl out_step [])) = join_words toks := by
  cases toks with
  | nil => rfl
  | cons t ts =>
    rw [out_fold_no_break (t :: ts) [] (fun x hx => (h x hx).2.2.2), List.nil_append]
    rw [join_map_space (t :: ts) (by simp)]
    exact py_strip_eval (join_words (t :: ts)) (join_words_head_ok _ h)
      (join_words_last_ok _ h)

/-- The wrapped rendering: the break marker eats the space of the token
before it, and the final strip removes the trailing space of the last
token, leaving the two space-joined lines around the break. -/
theorem phrase_of_tokens_wrap (toks : List String) (k : ℕ)
    (h : ∀ t ∈ toks, tok_ok t) (hk1 : 1 ≤ k) (hk2 : k < toks.length) :
    py_strip (String.join ((toks.take k ++ ["\\N"] ++ toks.drop k).foldl out_step [])) =
      join_words (toks.take k) ++ "\\N" ++ join_words (toks.drop k) := by
  have hT1 : ∀ t ∈ toks.take k, tok_ok t := fun t ht => h t (List.take_subset k toks ht)
  have hT2 : ∀ t ∈ toks.drop k, tok_ok t := fun t ht => h t (List.drop_subset k toks ht)
  have hT1len : (toks.take k).length = k := by
    rw [List.length_take]
    omega
  have hT1ne : toks.take k ≠ [] := by
    intro hx
    rw [hx] at hT1len
    simp at hT1len
    omega
  have hT2ne : toks.drop k ≠ [] := by
    intro hx
    have := congrArg List.length hx
    rw [List.length_drop] at this
    simp at this
    omega
  rw [List.foldl_append, List.foldl_append]
  rw [out_fold_no_break (toks.take k) [] (fun x hx => (hT1 x hx).2.2.2), List.nil_append]
  rw [List.foldl_cons, List.foldl_nil]
  rw [show out_step ((toks.take k).map (fun t => t ++ " ")) "\\N" =
    rstrip_last ((toks.take k).map (fun t => t ++ " ")) ++ ["\\N"] from if_pos rfl]
  rcases List.eq_nil_or_concat (toks.take k) with hnil | ⟨I, tl, hIt⟩
  · exact absurd hnil hT1ne
  · rw [List.concat_eq_append] at hIt
    have htl : tok_ok tl := hT1 tl (by rw [hIt]; simp)
    rw [hIt, List.map_append]
    rw [show (([tl] : List String).map (fun t => t ++ " ")) = [tl ++ " "] from rfl]
    rw [rstrip_last_concat (I.map (fun t => t ++ " ")) (tl ++ " ")]
    rw [py_rstrip_space tl htl]
    rw [out_fold_no_break (toks.drop k) _ (fun x hx => (hT2 x hx).2.2.2)]
    have hX : String.join ((I.map (fun t => t ++ " ") ++ [tl] ++ ["\\N"]) ++
        (toks.drop k).map (fun t => t ++ " ")) =
        (join_words (toks.take k) ++ "\\N" ++ join_words (toks.drop k)) ++ " " := by
      rw [string_join_append, string_join_append, string_join_append]
      rw [string_join_singleton, string_join_singleton]
      rw [join_map_space (toks.drop k) hT2ne]
      apply String.ext
      simp only [String.data_append]
      have hcat := congrArg String.data (join_map_concat I tl)
      rw [String.data_append] at hcat
      rw [← hIt] at hcat
      rw [← hcat]
      simp
    rw [hX, ← hIt]
    apply py_strip_eval
    · intro c hc
      rw [String.data_append, String.data_append] at hc
      rw [head?_append_ne _ _ (by
          intro hx
          rcases List.append_eq_nil.mp hx with ⟨h1, _⟩
          exact join_words_data_ne_nil (toks.take k) hT1 hT1ne h1)] at hc
      rw [head?_append_ne _ _ (join_words_data_ne_nil (toks.take k) hT1 hT1ne)] at hc
      exact join_words_head_ok (toks.take k) hT1 c hc
    · intro c hc
      rw [String.data_append, String.data_append] at hc
      rw [List.getLast?_append] at hc
      cases hj : (join_words (toks.drop k)).data.getLast? with
      | none =>
        exact absurd (List.getLast?_eq_none_iff.mp hj)
          (join_words_data_ne_nil (toks.drop k) hT2 hT2ne)
      | some d =>
        rw [hj] at hc
        rw [show (some d).or (((join_words (toks.take k)).data ++
          ("\\N" : String).data).getLast?) = some d from rfl] at hc
        injection hc with hc
        rw [← hc]
        exact join_words_last_ok (toks.drop k) hT2 d hj

theorem choose_wrap_index_range (ws : List String) (i : ℕ)
    (h : choose_wrap_index ws = some i) : 1 ≤ i ∧ i + 1 ≤ ws.length := by
  unfold choose_wrap_index at h
  by_cases h1 : ws.length < 4
  · rw [if_pos h1] at h
    exact absurd h (by simp)
  · rw [if_neg h1] at h
    by_cases h2 : (join_words ws).length ≤ 18
    · rw [if_pos h2] at h
      exact absurd h (by simp)
    · rw [if_neg h2] at h
      have hival : i = (wrap_loop ws (List.range' 1 (ws.length - 1)) (1, 10^9)).1 :=
        (Option.some.injEq _ _ ▸ h).symm
      have hspec := wrap_loop_spec ws (ws.length - 1) 1 1 (10^9)
        (wrap_loop ws (List.range' 1 (ws.length - 1)) (1, 10^9)).1
        (wrap_loop ws (List.range' 1 (ws.length - 1)) (1, 10^9)).2
        Prod.mk.eta
      rw [← hival] at hspec
      rcases hspec with ⟨ha, _, _⟩ | ⟨ha, hb, _⟩
      · subst ha
        omega
      · omega

/-- C5 (amended): for word texts that are non-empty, carry no edge
whitespace, and are not the literal break marker `\N`, the rendered phrase
is the words joined by single spaces — the active word wrapped in the
highlight marker and the reset-to-base marker — with the line break
replacing the space at the chosen split boundary and no trailing space
before the break. -/
theorem highlight_rendering (g : List Word) (a : ℕ) (hl base : String) (p : ℤ)
    (ftl : Bool)
    (hW : ∀ w ∈ g, clean_token w.word = true ∧ w.word ≠ "\\N") :
    build_highlight_phrase g a hl base p ftl =
      expected_phrase g a hl base
        (if ftl then choose_wrap_index (g.map (fun w => w.word)) else none) := by
  have htoks : ∀ t ∈ render_tokens a hl base 0 (g.map (fun w => w.word)), tok_ok t := by
    apply render_tokens_ok
    intro w hw
    obtain ⟨x, hx, hxx⟩ := List.mem_map.mp hw
    rw [← hxx]
    exact hW x hx
  unfold build_highlight_phrase expected_phrase
  dsimp only
  cases hwr : (if ftl then choose_wrap_index (g.map (fun w => w.word)) else none) with
  | none =>
    rw [build_parts_none]
    exact phrase_of_tokens _ htoks
  | some k =>
    have hch : choose_wrap_index (g.map (fun w => w.word)) = some k := by
      cases ftl with
      | false => exact absurd hwr (by simp)
      | true => exact hwr
    obtain ⟨hk1, hk2⟩ := choose_wrap_index_range _ k hch
    rw [build_parts_split a hl base k hk1 _ 0]
    rw [if_pos (⟨by omega, by omega⟩ :
      0 < k ∧ k ≤ 0 + (g.map (fun w => w.word)).length)]
    rw [Nat.sub_zero, Nat.zero_max]
    rw [render_tokens_take a hl base _ 0 k]
    rw [show render_tokens a hl base k ((g.map (fun w => w.word)).drop k) =
        (render_tokens a hl base 0 (g.map (fun w => w.word))).drop k from by
      rw [← render_tokens_drop a hl base _ 0 k, Nat.zero_add]]
    exact phrase_of_tokens_wrap _ k htoks hk1
      (by rw [render_tokens_length]; omega)

/-- C5 counterexample: a word whose text is the literal break marker `\N`
is treated as a line break by the output loop (its surrounding spaces are
suppressed), so the output differs from the claimed space-joined
rendering. -/
theorem highlight_rendering_cex :
    build_highlight_phrase [⟨"a", 0, 1⟩, ⟨"\\N", 1, 2⟩, ⟨"b", 2, 3⟩] 0
        "&H00FFFF00&" "&H00FFFFFF&" 120 false ≠
      expected_phrase [⟨"a", 0, 1⟩, ⟨"\\N", 1, 2⟩, ⟨"b", 2, 3⟩] 0
        "&H00FFFF00&" "&H00FFFFFF&" none := by
  decide

/-- Witness for C5 on a clean two-word group with wrapping requested (the
two-word phrase is below the wrap thresholds, so it renders on one line
with the first word highlighted). -/
theorem highlight_rendering_witness :
    build_highlight_phrase [⟨"hello", 0, 1⟩, ⟨"world", 1, 2⟩] 0
        "&H00FFFF00&" "&H00FFFFFF&" 120 true =
      expected_phrase [⟨"hello", 0, 1⟩, ⟨"world", 1, 2⟩] 0
        "&H00FFFF00&" "&H00FFFFFF&"
        (if true then choose_wrap_index
          (([⟨"hello", 0, 1⟩, ⟨"world", 1, 2⟩] : List Word).map (fun w => w.word))
        else none) :=
  highlight_rendering [⟨"hello", 0, 1⟩, ⟨"world", 1, 2⟩] 0
    "&H00FFFF00&" "&H00FFFFFF&" 120 true (by decide)

/-- A string with no backslash character at all. -/
def no_backslash (s : String) : Bool := s.data.all (fun c => !(c = '\\'))

/-- Every backslash in the list is immediately followed by `c` (the color
override the function emits) or `N` (the line break); in particular no
backslash is last.  This is the invariant that rules out a `\fscx`
horizontal-scale tag. -/
def bs_ok : List Char → Bool
  | [] => true
  | x :: rest =>
    if x = '\\' then
      match rest with
      | [] => false
      | c :: _ => ((c = 'c') || (c = 'N')) && bs_ok rest
    else bs_ok rest

theorem bs_ok_cons (x : Char) (rest : List Char) :
    bs_ok (x :: rest) =
      if x = '\\' then
        (match rest with
          | [] => false
          | c :: _ => ((c = 'c') || (c = 'N')) && bs_ok rest)
      else bs_ok rest := rfl

/-- Naive substring search, the embedding of Python `in` on strings. -/
def has_sub (p : List Char) : List Char → Bool
  | [] => p.isEmpty
  | c :: rest => p.isPrefixOf (c :: rest) || has_sub p rest

/-- The output contains the ASS horizontal-scale override tag. -/
def contains_fscx (s : String) : Bool := has_sub ['\\', 'f', 's', 'c', 'x'] s.data

theorem bs_ok_tail (x : Char) (rest : List Char) (h : bs_ok (x :: rest) = true) :
    bs_ok rest = true := by
  rw [bs_ok_cons] at h
  by_cases hx : x = '\\'
  · rw [if_pos hx] at h
    cases rest with
    | nil => exact absurd h (by decide)
    | cons c r =>
      rw [Bool.and_eq_true] at h
      exact h.2
  · rw [if_neg hx] at h
    exact h

theorem bs_ok_cons_ne (x : Char) (l : List Char) (hx : ¬(x = '\\'))
    (h : bs_ok l = true) : bs_ok (x :: l) = true := by
  rw [bs_ok_cons, if_neg hx]
  exact h

theorem bs_ok_append : ∀ (a b : List Char),
    bs_ok a = true → bs_ok b = true → bs_ok (a ++ b) = true
  | [], _, _, hb => hb
  | x :: a', b, ha, hb => by
    rw [List.cons_append, bs_ok_cons]
    rw [bs_ok_cons] at ha
    by_cases hx : x = '\\'
    · rw [if_pos hx] at ha ⊢
      cases a' with
      | nil => exact absurd ha (by decide)
      | cons c r =>
        rw [List.cons_append]
        rw [Bool.and_eq_true] at ha
        show ((decide (c = 'c') || decide (c = 'N')) && bs_ok (c :: (r ++ b))) = true
        rw [Bool.and_eq_true]
        refine ⟨ha.1, ?_⟩
        rw [← List.cons_append]
        exact bs_ok_append (c :: r) b ha.2 hb
    · rw [if_neg hx] at ha ⊢
      exact bs_ok_append a' b ha hb

theorem bs_ok_of_all : ∀ (l : List Char),
    l.all (fun c => !(c = '\\')) = true → bs_ok l = true
  | [], _ => rfl
  | x :: rest, h => by
    rw [List.all_cons, Bool.and_eq_true] at h
    exact bs_ok_cons_ne x rest (by simpa using h.1) (bs_ok_of_all rest h.2)

theorem bs_ok_of_no_backslash (s : String) (h : no_backslash s = true) :
    bs_ok s.data = true := bs_ok_of_all s.data h

theorem bs_ok_bs_c (l : List Char) (h : bs_ok l = true) :
    bs_ok ('\\' :: 'c' :: l) = true := by
  rw [bs_ok_cons, if_pos rfl]
  show ((decide ('c' = 'c') || decide ('c' = 'N')) && bs_ok ('c' :: l)) = true
  rw [Bool.and_eq_true]
  exact ⟨by decide, bs_ok_cons_ne 'c' l (by decide) h⟩

theorem bs_ok_hl_token (hl base w : String) (hhl : no_backslash hl = true)
    (hb : no_backslash base = true) (hw : no_backslash w = true) :
    bs_ok (hl_token hl base w).data = true := by
  rw [hl_token_data]
  apply bs_ok_cons_ne _ _ (by decide)
  apply bs_ok_bs_c
  apply bs_ok_append _ _ (bs_ok_of_no_backslash hl hhl)
  apply bs_ok_cons_ne _ _ (by decide)
  apply bs_ok_append _ _ (bs_ok_of_no_backslash w hw)
  apply bs_ok_cons_ne _ _ (by decide)
  apply bs_ok_bs_c
  exact bs_ok_append _ _ (bs_ok_of_no_backslash base hb) (by decide)

theorem rstrip_bs_ok : ∀ (l : List Char), bs_ok l = true →
    bs_ok (rstrip_chars l) = true
  | [], h => h
  | x :: rest, h => by
    have hr := rstrip_bs_ok rest (bs_ok_tail x rest h)
    rw [rstrip_chars_cons]
    by_cases hx : x = '\\'
    · rw [bs_ok_cons, if_pos hx] at h
      cases rest with
      | nil => exact absurd h (by decide)
      | cons c r =>
        rw [Bool.and_eq_true] at h
        have hc := h.1
        have hcsp : py_isspace c = false := by
          rw [Bool.or_eq_true] at hc
          rcases hc with h1 | h1 <;>
            rw [decide_eq_true_eq] at h1 <;> rw [h1] <;> decide
        have hne : ∃ r2, rstrip_chars (c :: r) = c :: r2 := by
          rw [rstrip_chars_cons]
          cases hrr : rstrip_chars r with
          | nil =>
            rw [if_neg (by rw [hcsp]; exact Bool.false_ne_true)]
            exact ⟨[], rfl⟩
          | cons d r' => exact ⟨d :: r', rfl⟩
        obtain ⟨r2, hr2⟩ := hne
        rw [hr2]
        show bs_ok (x :: c :: r2) = true
        rw [bs_ok_cons, if_pos hx]
        show ((decide (c = 'c') || decide (c = 'N')) && bs_ok (c :: r2)) = true
        rw [Bool.and_eq_true]
        refine ⟨hc, ?_⟩
        rw [← hr2]
        exact hr
    · cases hrr : rstrip_chars rest with
      | nil =>
        by_cases hsp : py_isspace x = true
        · rw [if_pos hsp]
          rfl
        · rw [if_neg hsp]
          exact bs_ok_cons_ne x [] hx rfl
      | cons d r' =>
        show bs_ok (x :: d :: r') = true
        apply bs_ok_cons_ne x (d :: r') hx
        rw [← hrr]
        exact hr

theorem dropWhile_bs_ok : ∀ (l : List Char), bs_ok l = true →
    bs_ok (l.dropWhile py_isspace) = true
  | [], h => h
  | x :: rest, h => by
    rw [List.dropWhile_cons]
    by_cases hsp : py_isspace x = true
    · rw [if_pos hsp]
      exact dropWhile_bs_ok rest (bs_ok_tail x rest h)
    · rw [if_neg hsp]
      exact h

theorem join_bs_ok : ∀ (L : List String), (∀ s ∈ L, bs_ok s.data = true) →
    bs_ok (String.join L).data = true
  | [], _ => rfl
  | s :: L, h => by
    rw [string_join_cons, String.data_append]
    exact bs_ok_append _ _ (h s (by simp))
      (join_bs_ok L (fun x hx => h x (by simp [hx])))

theorem rstrip_last_bs_ok : ∀ (L : List String),
    (∀ s ∈ L, bs_ok s.data = true) → ∀ s ∈ rstrip_last L, bs_ok s.data = true
  | [], _, s, hs => absurd hs (by simp [rstrip_last])
  | [x], h, s, hs => by
    rw [show rstrip_last [x] = [py_rstrip x] from rfl] at hs
    rw [List.mem_singleton] at hs
    rw [hs]
    show bs_ok (rstrip_chars x.data) = true
    exact rstrip_bs_ok _ (h x (by simp))
  | x :: y :: L, h, s, hs => by
    rw [rstrip_last_cons2] at hs
    rcases List.mem_cons.mp hs with hs | hs
    · rw [hs]
      exact h x (by simp)
    · exact rstrip_last_bs_ok (y :: L) (fun z hz => h z (by simp [hz])) s hs

theorem out_fold_bs_ok : ∀ (parts out : List String),
    (∀ t ∈ parts, bs_ok t.data = true) → (∀ s ∈ out, bs_ok s.data = true) →
    ∀ s ∈ parts.foldl out_step out, bs_ok s.data = true
  | [], out, _, ho, s, hs => ho s hs
  | t :: parts, out, hp, ho, s, hs => by
    rw [List.foldl_cons] at hs
    refine out_fold_bs_ok parts (out_step out t)
      (fun x hx => hp x (by simp [hx])) ?_ s hs
    intro x hx
    unfold out_step at hx
    by_cases hb : t = "\\N"
    · rw [if_pos hb] at hx
      rcases List.mem_append.mp hx with hx | hx
      · exact rstrip_last_bs_ok out ho x hx
      · rw [List.mem_singleton] at hx
        rw [hx]
        decide
    · rw [if_neg hb] at hx
      rcases List.mem_append.mp hx with hx | hx
      · exact ho x hx
      · rw [List.mem_singleton] at hx
        rw [hx]
        show bs_ok ((t ++ " ").data) = true
        rw [String.data_append]
        exact bs_ok_append _ _ (hp t (by simp)) (by decide)

theorem build_parts_cons (a : ℕ) (hl base : String) (wrap_i : Option ℕ) (i : ℕ)
    (w : String) (ws : List String) :
    build_parts a hl base wrap_i i (w :: ws) =
      (if i = a then hl_token hl base w else w) ::
        ((if break_after wrap_i i then ["\\N"] else []) ++
          build_parts a hl base wrap_i (i + 1) ws) := rfl

theorem build_parts_bs_ok (a : ℕ) (hl base : String) (wrap_i : Option ℕ)
    (hhl : no_backslash hl = true) (hb : no_backslash base = true) :
    ∀ (ws : List String) (i : ℕ), (∀ w ∈ ws, no_backslash w = true) →
      ∀ t ∈ build_parts a hl base wrap_i i ws, bs_ok t.data = true
  | [], _, _, t, ht => absurd ht (by simp [build_parts])
  | w :: ws, i, h, t, ht => by
    rw [build_parts_cons] at ht
    rcases List.mem_cons.mp ht with ht | ht
    · rw [ht]
      by_cases hia : i = a
      · rw [if_pos hia]
        exact bs_ok_hl_token hl base w hhl hb (h w (by simp))
      · rw [if_neg hia]
        exact bs_ok_of_no_backslash w (h w (by simp))
    · rcases List.mem_append.mp ht with ht | ht
      · by_cases hbrk : break_after wrap_i i = true
        · rw [if_pos hbrk] at ht
          rw [List.mem_singleton] at ht
          rw [ht]
          decide
        · rw [if_neg hbrk] at ht
          exact absurd ht (by simp)
      · exact build_parts_bs_ok a hl base wrap_i hhl hb ws (i + 1)
          (fun x hx => h x (by simp [hx])) t ht

theorem bs_ok_no_fscx : ∀ (l : List Char), bs_ok l = true →
    has_sub ['\\', 'f', 's', 'c', 'x'] l = false
  | [], _ => rfl
  | c :: rest, h => by
    show (List.isPrefixOf ['\\', 'f', 's', 'c', 'x'] (c :: rest) ||
      has_sub ['\\', 'f', 's', 'c', 'x'] rest) = false
    rw [Bool.or_eq_false_iff]
    constructor
    · by_cases hc : c = '\\'
      · subst hc
        rw [bs_ok_cons, if_pos rfl] at h
        cases rest with
        | nil => exact absurd h (by decide)
        | cons d r =>
          rw [Bool.and_eq_true] at h
          have hd := h.1
          show (('\\' == '\\') && (('f' == d) && List.isPrefixOf ['s', 'c', 'x'] r)) = false
          have hfd : ('f' == d) = false := by
            rw [Bool.or_eq_true] at hd
            rcases hd with h1 | h1 <;>
              rw [decide_eq_true_eq] at h1 <;> rw [h1] <;> decide
          rw [hfd, Bool.false_and, Bool.and_false]
      · show (('\\' == c) && List.isPrefixOf ['f', 's', 'c', 'x'] rest) = false
        have : ('\\' == c) = false := by
          rw [beq_eq_false_iff_ne]
          exact fun he => hc he.symm
        rw [this, Bool.false_and]
    · exact bs_ok_no_fscx rest (bs_ok_tail c rest h)

/-- C10 (amended): the rendered phrase never depends on `pop_scale_x` (the
parameter is dead in the source), and — provided the word texts and the
two color tokens contain no backslash of their own — the output contains
no `\fscx` horizontal-scale tag: every backslash it emits starts `\c` or
`\N`. -/
theorem pop_scale_independent (g : List Word) (a : ℕ) (hl base : String)
    (p1 p2 : ℤ) (ftl : Bool) :
    build_highlight_phrase g a hl base p1 ftl =
      build_highlight_phrase g a hl base p2 ftl ∧
    ((∀ w ∈ g, no_backslash w.word = true) → no_backslash hl = true →
      no_backslash base = true →
      contains_fscx (build_highlight_phrase g a hl base p1 ftl) = false) := by
  refine ⟨rfl, ?_⟩
  intro hg hhl hb
  unfold build_highlight_phrase contains_fscx py_strip
  dsimp only
  apply bs_ok_no_fscx
  apply rstrip_bs_ok
  apply dropWhile_bs_ok
  apply join_bs_ok
  apply out_fold_bs_ok _ [] ?_ (by simp)
  apply build_parts_bs_ok a hl base _ hhl hb
  intro w hw
  obtain ⟨x, hx, hxx⟩ := List.mem_map.mp hw
  rw [← hxx]
  exact hg x hx

/-- C10 counterexample: a word text that itself contains the tag `\fscx`
reappears verbatim in the output, so the claim's unconditional "no
horizontal-scale directive" fails as stated. -/
theorem pop_scale_cex :
    contains_fscx (build_highlight_phrase [⟨"\\fscx120", 0, 1⟩] 1
      "&H00FFFF00&" "&H00FFFFFF&" 120 false) = true := by
  decide

/-- Witness for C10 on a clean one-word group and the two pop-scale values
used in the repository (120 and 125). -/
theorem pop_scale_witness :
    build_highlight_phrase [⟨"hi", 0, 1⟩] 0 "&H00FFFF00&" "&H00FFFFFF&" 120 false =
      build_highlight_phrase [⟨"hi", 0, 1⟩] 0 "&H00FFFF00&" "&H00FFFFFF&" 125 false ∧
    contains_fscx (build_highlight_phrase [⟨"hi", 0, 1⟩] 0
      "&H00FFFF00&" "&H00FFFFFF&" 120 false) = false := by
  have h := pop_scale_independent [⟨"hi", 0, 1⟩] 0 "&H00FFFF00&" "&H00FFFFFF&" 120 125 false
  exact ⟨h.1, h.2 (by decide) (by decide) (by decide)⟩

end VideoCaptioning
